import Mathlib

/-!
Verification of the InertiaNode adapter's response-resolution engine.

The definitions below are a shallow embedding of the TypeScript source:

* `Val` models the JavaScript values that appear in an Inertia property
  tree: JSON primitives, records, arrays, zero-argument callbacks,
  promises, and the five prop-variant wrapper classes
  (`LazyProp`, `OptionalProp`, `AlwaysProp`, `DeferProp`, `MergeProp`
  from `packages/core/src/props/`).
* `Fields` is a JavaScript record (string-keyed object): an ordered
  association list with unique keys (JS objects cannot hold a duplicate
  key, so every record the engine manipulates has `Nodup` keys).
* The resolution engine (`InertiaResponse` of the core package) is
  embedded function by function: `resolvePartialProperties`,
  `resolveAlways`, `resolvePropertyInstances` (as `resolveFields`),
  `resolveMergeProps`, `resolveDeferredProps`, `getUrl`,
  `toPage` (the page-object assembly of `toResponse`), and the
  middleware helpers `location`, `handleEmptyResponse`,
  `handleVersionChange` and the Hono adapter's version gate.

Callbacks are modelled as pure: `Val.vFunc r` is a zero-argument
function whose call returns `r` (which may itself be a promise value
`Val.vPromise v`, the model of a callback that returns a promise).
-/

/-! ## JavaScript values and records -/

mutual

/-- A JavaScript value as the resolution engine sees it: a JSON
primitive, a record, an array, a zero-argument callback (`vFunc r`
calls to `r`), a promise (`vPromise r` resolves to `r`), or one of the
five prop-variant wrapper classes.  `lazyP`, `optionalP` and `deferP`
store the object held in their `callback` field (a `vFunc` when built
by the constructor); `alwaysP` and `mergeP` store their `value` field,
which may or may not be a function.  `deferP` also carries
`groupValue` and, as `mergeP` does, the `mergeFlag`, `deepMergeFlag`
and `matchOnArray` fields of the `Mergeable` interface (the
append/prepend fields of the source classes are not consulted by the
resolution engine and are not modelled). -/
inductive Val : Type where
  | vNull : Val
  | vUndefined : Val
  | vBool (b : Bool) : Val
  | vInt (n : Int) : Val
  | vStr (s : String) : Val
  | vObj (fields : Fields) : Val
  | vArr (elems : Elems) : Val
  | vFunc (result : Val) : Val
  | vPromise (result : Val) : Val
  | lazyP (callback : Val) : Val
  | optionalP (callback : Val) : Val
  | alwaysP (value : Val) : Val
  | deferP (callback : Val) (groupValue : Option String)
      (mergeFlag deepMergeFlag : Bool) (matchOnArray : List String) : Val
  | mergeP (value : Val) (mergeFlag deepMergeFlag : Bool)
      (matchOnArray : List String) : Val

/-- A JavaScript record: keys in insertion order.  JS records cannot
hold duplicate keys; theorems that need it take a `Nodup` hypothesis. -/
inductive Fields : Type where
  | nil : Fields
  | cons (key : String) (value : Val) (rest : Fields) : Fields

/-- A JavaScript array of values. -/
inductive Elems : Type where
  | nil : Elems
  | cons (value : Val) (rest : Elems) : Elems

end

/-- Property lookup, `obj[k]` combined with `k in obj`:
`none` models the key being absent. -/
def Fields.lookup : Fields → String → Option Val
  | .nil, _ => none
  | .cons k v r, key => if k = key then some v else r.lookup key

/-- Property assignment `obj[k] = v`: updates the existing key in
place (JS keeps its position) or appends a new key at the end. -/
def Fields.setKey : Fields → String → Val → Fields
  | .nil, key, v => .cons key v .nil
  | .cons k w r, key, v =>
      if k = key then .cons k v r else .cons k w (r.setKey key v)

/-- Property deletion `delete obj[k]` (keys are unique in a JS record,
so removing every occurrence coincides with removing the one). -/
def Fields.deleteKey : Fields → String → Fields
  | .nil, _ => .nil
  | .cons k v r, key =>
      if k = key then r.deleteKey key else .cons k v (r.deleteKey key)

/-- `Object.entries(obj)`: the key/value pairs in insertion order. -/
def Fields.toList : Fields → List (String × Val)
  | .nil => []
  | .cons k v r => (k, v) :: r.toList

/-- `Object.keys(obj)`. -/
def Fields.keys (f : Fields) : List String := f.toList.map Prod.fst

/-- `Object.fromEntries(list)` for a duplicate-free entry list (the
only way the source uses it). -/
def listToFields : List (String × Val) → Fields
  | [] => .nil
  | (k, v) :: r => .cons k v (listToFields r)

/-- The object spread `{ ...base, ...src }`: every entry of `src`
assigned, in order, on top of `base`. -/
def Fields.assignAll (base : Fields) : Fields → Fields
  | .nil => base
  | .cons k v r => Fields.assignAll (base.setKey k v) r

/-- Map a function over the values of a record, keeping keys and
order. -/
def Fields.mapVals (g : Val → Val) : Fields → Fields
  | .nil => .nil
  | .cons k v r => .cons k (g v) (r.mapVals g)

/-! ## Prop-variant capabilities -/

/-- Call a JavaScript value as a zero-argument function, as
`this.callback()` does.  Calling a non-function throws in JS; that
state is unreachable for constructor-built props and is modelled as
`vUndefined`. -/
def callVal : Val → Val
  | .vFunc r => r
  | _ => .vUndefined

/-- `typeof value === 'function' ? value() : value` — the body of
`AlwaysProp.__invoke` and `MergeProp.__invoke`. -/
def invokeVal : Val → Val
  | .vFunc r => r
  | v => v

/-- `prop instanceof LazyProp || prop instanceof OptionalProp ||
prop instanceof DeferProp` — the three `IgnoreFirstLoad` classes. -/
def Val.isIgnoreFirstLoad : Val → Bool
  | .lazyP _ => true
  | .optionalP _ => true
  | .deferP _ _ _ _ _ => true
  | _ => false

/-- `prop instanceof AlwaysProp`. -/
def Val.isAlways : Val → Bool
  | .alwaysP _ => true
  | _ => false

/-- `prop instanceof DeferProp`. -/
def Val.isDefer : Val → Bool
  | .deferP _ _ _ _ _ => true
  | _ => false

/-- `prop instanceof MergeProp || prop instanceof DeferProp` — the two
`Mergeable` classes. -/
def Val.isMergeableWrapper : Val → Bool
  | .mergeP _ _ _ _ => true
  | .deferP _ _ _ _ _ => true
  | _ => false

/-- `prop.shouldMerge()` of a `Mergeable` (false on anything else). -/
def Val.shouldMergeB : Val → Bool
  | .mergeP _ m _ _ => m
  | .deferP _ _ m _ _ => m
  | _ => false

/-- `prop.shouldDeepMerge()` of a `Mergeable`. -/
def Val.shouldDeepMergeB : Val → Bool
  | .mergeP _ _ dm _ => dm
  | .deferP _ _ _ dm _ => dm
  | _ => false

/-- `prop.matchesOn()` of a `Mergeable`. -/
def Val.matchesOnL : Val → List String
  | .mergeP _ _ _ mo => mo
  | .deferP _ _ _ _ mo => mo
  | _ => []

/-- `DeferProp.group() || 'default'`: the group name with the JS-falsy
values (`null` and the empty string) replaced by the default group. -/
def Val.deferGroupD : Val → String
  | .deferP _ (some g) _ _ _ => if g = "" then "default" else g
  | _ => "default"

/-- `new MergeProp(v)`: merge enabled by default. -/
def mergePropNew (v : Val) : Val := .mergeP v true false []

/-- `new DeferProp(cb, group)`: merge disabled by default. -/
def deferPropNew (r : Val) (g : Option String) : Val :=
  .deferP (.vFunc r) g false false []

/-- `prop.deepMerge()` (which also sets the merge flag, via
`this.merge()`), on the two `Mergeable` wrappers. -/
def Val.deepMergeB : Val → Val
  | .mergeP v _ _ mo => .mergeP v true true mo
  | .deferP f g _ _ mo => .deferP f g true true mo
  | v => v

/-- `prop.matchOn(key)`: replaces the match-on list. -/
def Val.matchOnB (s : String) : Val → Val
  | .mergeP v m dm _ => .mergeP v m dm [s]
  | .deferP f g m dm _ => .deferP f g m dm [s]
  | v => v

/-! ## Requests and protocol headers

The engine reads requests only through `request.headers.get(name)`
(null when absent), `request.method` and `request.url`; the model
carries exactly those observations.  The header names are the
constants of `Headers.ts`: `X-Inertia`, `X-Inertia-Version`,
`X-Inertia-Partial-Component`, `X-Inertia-Partial-Data`,
`X-Inertia-Partial-Except`, `X-Inertia-Reset`.  `request.url` is
observed through `new URL(...)` as `pathname` and `search`. -/

structure Request where
  inertiaHeader : Option String := none
  versionHeader : Option String := none
  partialComponentHeader : Option String := none
  partialDataHeader : Option String := none
  partialExceptHeader : Option String := none
  resetHeader : Option String := none
  refererHeader : Option String := none
  method : String := "GET"
  pathname : String := "/"
  search : String := ""

/-- `string.split(sep)` for a one-character separator, on the
character list: splitting the empty string gives `[""]`, a trailing
separator contributes a trailing empty segment, exactly as in JS. -/
def splitChars (sep : Char) : List Char → List (List Char)
  | [] => [[]]
  | c :: rest =>
      let r := splitChars sep rest
      if c = sep then [] :: r
      else
        match r with
        | [] => [[c]]
        | h :: t => (c :: h) :: t

/-- `string.split(sep)` as strings. -/
def strSplit (s : String) (sep : Char) : List String :=
  (splitChars sep s.data).map String.mk

/-- `header ? header.split(',').filter(Boolean) : []`: the
comma-separated key lists of the partial/reset headers.  A missing
header and the (JS-falsy) empty header both give the empty list, and
`filter(Boolean)` drops empty segments. -/
def headerList : Option String → List String
  | none => []
  | some s => if s = "" then [] else (strSplit s ',').filter (fun x => x ≠ "")

/-- A JS truthiness test on a header value: absent (`undefined`/`null`)
and the empty string are falsy. -/
def truthyHeader : Option String → Bool
  | none => false
  | some s => s ≠ ""

/-- `InertiaResponse.isPartial`:
`request.headers.get(Headers.PARTIAL_COMPONENT) === this.component`
(exact, case-sensitive string equality; `null` never equals a string). -/
def isPartialReq (component : String) (req : Request) : Bool :=
  req.partialComponentHeader = some component

/-! ## Dot-notation nested helpers

`getNestedValue`, `setNestedValue`, `unsetNestedValue` of
`InertiaResponse` walk `path.split('.')`.  The JS loops descend only
while `current && typeof current === 'object' && key in current`
holds; the model descends through plain records (`vObj`).  JS would
also step into arrays by index and into the enumerable fields of the
wrapper-class instances, and a strict-mode write into a primitive
would throw; no claim, test or counterexample below exercises those
paths. -/

/-- `getNestedValue(obj, path)`: `undefined` when the walk falls off. -/
def getNestedValue : Val → List String → Val
  | v, [] => v
  | v, key :: rest =>
      match v with
      | .vObj fs =>
          match fs.lookup key with
          | some w => getNestedValue w rest
          | none => .vUndefined
      | _ => .vUndefined

/-- `setNestedValue(obj, path, value)`: creates `{}` for missing
intermediate keys and assigns the last segment. -/
def setNestedValue : Fields → List String → Val → Fields
  | fs, [], _ => fs
  | fs, [key], v => fs.setKey key v
  | fs, key :: key2 :: rest, v =>
      match fs.lookup key with
      | some (.vObj inner) =>
          fs.setKey key (.vObj (setNestedValue inner (key2 :: rest) v))
      | some _ => fs
      | none =>
          fs.setKey key (.vObj (setNestedValue Fields.nil (key2 :: rest) v))

/-- `unsetNestedValue(obj, path)`: deletes the last segment when the
whole walk succeeds, otherwise returns with the object unchanged. -/
def unsetNestedValue : Fields → List String → Fields
  | fs, [] => fs
  | fs, [key] => if (fs.lookup key).isSome then fs.deleteKey key else fs
  | fs, key :: key2 :: rest =>
      match fs.lookup key with
      | some (.vObj inner) =>
          fs.setKey key (.vObj (unsetNestedValue inner (key2 :: rest)))
      | _ => fs

/-! ## Deep value resolution

`InertiaResponse.resolvePropertyInstances` walks a record, replacing
`LazyProp`/`OptionalProp`/`AlwaysProp`/`MergeProp` instances by
`__invoke()`, calling plain zero-argument functions, and recursing
into arrays and other objects.  A `DeferProp` instance is *not* in the
instance-check list, so the recursion enters it as an ordinary object:
its enumerable `callback` field (a function) is invoked and
overwritten in place, but the wrapper itself remains in the props.
Promises have no own enumerable properties, so the recursion leaves
them untouched (nothing in the pipeline awaits them).  Replacement
results are not revisited: a callback that itself returns a function
or wrapper leaves that value in the props unresolved. -/

mutual

/-- The per-value branch of `resolvePropertyInstances`. -/
def resolveVal : Val → Val
  | .lazyP f => callVal f
  | .optionalP f => callVal f
  | .alwaysP v => invokeVal v
  | .mergeP v _ _ _ => invokeVal v
  | .vFunc r => r
  | .vArr es => .vArr (resolveElems es)
  | .vObj fs => .vObj (resolveFields fs)
  | .deferP f g m dm mo => .deferP (resolveVal f) g m dm mo
  | v => v

/-- `resolvePropertyInstances` over a record. -/
def resolveFields : Fields → Fields
  | .nil => .nil
  | .cons k v r => .cons k (resolveVal v) (resolveFields r)

/-- `resolvePropertyInstances` over an array. -/
def resolveElems : Elems → Elems
  | .nil => .nil
  | .cons v r => .cons (resolveVal v) (resolveElems r)

end

/-! ## Partial selection and always reinjection -/

/-- The `value instanceof DeferProp ? value.__invoke() : value` step
of the `only` rebuild. -/
def deferInvokeStep : Val → Val
  | .deferP f _ _ _ _ => callVal f
  | v => v

/-- The `only` rebuild of `resolvePartialProperties`: a fresh record
holding each requested dotted path, looked up in the full tree. -/
def onlySelect (props : Fields) (only : List String) : Fields :=
  only.foldl
    (fun acc key =>
      setNestedValue acc (strSplit key '.')
        (deferInvokeStep (getNestedValue (.vObj props) (strSplit key '.'))))
    Fields.nil

/-- The `except` pass of `resolvePartialProperties`: every listed
dotted path deleted. -/
def exceptDelete (props : Fields) (except : List String) : Fields :=
  except.foldl (fun acc key => unsetNestedValue acc (strSplit key '.')) props

/-- `InertiaResponse.resolvePartialProperties`.  Non-partial requests
drop every first-load-ignored (`Lazy`/`Optional`/`Defer`) top-level
prop into a fresh record; partial requests rebuild from the
`Partial-Data` list when it is non-empty and then delete the
`Partial-Except` paths.  When `Partial-Data` is empty the `except`
deletions operate on `this.props` itself (aliasing modelled by
`storedPropsAfter` below). -/
def resolvePartialProperties (component : String) (props : Fields)
    (req : Request) : Fields :=
  if ¬ isPartialReq component req then
    listToFields (props.toList.filter (fun kv => ¬ kv.2.isIgnoreFirstLoad))
  else
    let only := headerList req.partialDataHeader
    let except := headerList req.partialExceptHeader
    exceptDelete (if only ≠ [] then onlySelect props only else props) except

/-- `InertiaResponse.resolveAlways`: the `AlwaysProp` entries of
`this.props` as a base layer under the filtered result,
`{ ...always, ...props }`. -/
def resolveAlways (thisProps : Fields) (props : Fields) : Fields :=
  Fields.assignAll
    (listToFields (thisProps.toList.filter (fun kv => kv.2.isAlways)))
    props

/-- `InertiaResponse.resolveProperties`: partial filtering, always
reinjection, then deep value resolution.  `resolveAlways` reads
`this.props`, which — when the request is partial with an empty
`Partial-Data` header — is the very object the `except` pass just
deleted from, so in that branch the always layer is computed from the
already-filtered record. -/
def resolveProperties (component : String) (thisProps : Fields)
    (req : Request) : Fields :=
  let p1 := resolvePartialProperties component thisProps req
  let thisNow :=
    if isPartialReq component req ∧ headerList req.partialDataHeader = []
    then p1 else thisProps
  resolveFields (resolveAlways thisNow p1)

/-! ## Merge, deferred and cache metadata -/

/-- The three optional merge-metadata fields of the page object; each
is omitted (`none`) when its list is empty. -/
structure MergeMeta where
  mergeProps : Option (List String)
  deepMergeProps : Option (List String)
  matchPropsOn : Option (List String)
  deriving DecidableEq, Repr

/-- Emit a metadata list only when non-empty, as the
`if (list.length > 0) result.field = list` pattern does. -/
def optList (l : List String) : Option (List String) :=
  if l = [] then none else some l

/-- The filter chain opening `InertiaResponse.resolveMergeProps`:
entries of `this.props` whose value is a `Mergeable` wrapper with
`shouldMerge()`, minus the `Reset` keys, respecting the
`Partial-Data`/`Partial-Except` key lists. -/
def mergeableEntries (thisProps : Fields) (req : Request) :
    List (String × Val) :=
  let resetProps := headerList req.resetHeader
  let onlyProps := headerList req.partialDataHeader
  let exceptProps := headerList req.partialExceptHeader
  ((((thisProps.toList.filter (fun kv => kv.2.isMergeableWrapper)).filter
      (fun kv => kv.2.shouldMergeB)).filter
      (fun kv => ¬ resetProps.contains kv.1)).filter
      (fun kv => onlyProps = [] ∨ onlyProps.contains kv.1)).filter
      (fun kv => ¬ exceptProps.contains kv.1)

/-- `InertiaResponse.resolveMergeProps`: the selected mergeable
entries partitioned by `shouldDeepMerge()` into `mergeProps` /
`deepMergeProps`, with `matchesOn()` flattened into `key.strategy`
entries; each field omitted when empty. -/
def resolveMergeProps (thisProps : Fields) (req : Request) : MergeMeta :=
  let mergeable := mergeableEntries thisProps req
  let deepMergeList :=
    (mergeable.filter (fun kv => kv.2.shouldDeepMergeB)).map Prod.fst
  let matchPropsOnList :=
    (mergeable.map (fun kv =>
      kv.2.matchesOnL.map (fun strategy => kv.1 ++ "." ++ strategy))).flatten
  let regularMergeList :=
    (mergeable.filter (fun kv => ¬ kv.2.shouldDeepMergeB)).map Prod.fst
  { mergeProps := optList regularMergeList
    deepMergeProps := optList deepMergeList
    matchPropsOn := optList matchPropsOnList }

/-- The `reduce` step of `resolveDeferredProps`: append a key to its
group, creating the group at the end on first sight. -/
def addDeferKey (groups : List (String × List String)) (g k : String) :
    List (String × List String) :=
  if groups.any (fun p => p.1 = g) then
    groups.map (fun p => if p.1 = g then (p.1, p.2 ++ [k]) else p)
  else groups ++ [(g, [k])]

/-- `InertiaResponse.resolveDeferredProps`: empty for partial
requests; otherwise the top-level `DeferProp` keys grouped by
`group() || 'default'` in first-seen order, emitted only when
non-empty. -/
def resolveDeferredProps (component : String) (thisProps : Fields)
    (req : Request) : Option (List (String × List String)) :=
  if isPartialReq component req then none
  else
    let groups :=
      (thisProps.toList.filter (fun kv => kv.2.isDefer)).foldl
        (fun gs kv => addDeferKey gs kv.2.deferGroupD kv.1) []
    if groups = [] then none else some groups

/-! ## URL normalization -/

/-- `InertiaResponse.finishUrlWithTrailingSlash`:
`url.length > 1 && url.endsWith('/') ? url.slice(0, -1) : url`,
spelled on the character list (`endsWith "/"` is "last character is a
slash", `slice(0, -1)` drops the last character). -/
def finishUrlWithTrailingSlash (url : String) : String :=
  if url.length > 1 ∧ url.data.getLast? = some '/' then
    String.mk url.data.dropLast
  else url

/-- `InertiaResponse.getUrl`: `url.pathname + url.search`, through the
optional URL resolver, then the trailing-slash normalization. -/
def getUrl (urlResolver : Option (String → String))
    (pathname search : String) : String :=
  let path := pathname ++ search
  finishUrlWithTrailingSlash
    (match urlResolver with | some f => f path | none => path)

/-! ## The page object -/

/-- The wire page object assembled by `toResponse` (the `cache` list
is omitted: every response in the claims has the default empty
`cacheFor`, for which `resolveCacheDirections` contributes nothing). -/
structure Page where
  component : String
  props : Fields
  url : String
  version : String
  clearHistory : Bool
  encryptHistory : Bool
  mergeProps : Option (List String)
  deepMergeProps : Option (List String)
  matchPropsOn : Option (List String)
  deferredProps : Option (List (String × List String))

/-- The page-object assembly of `InertiaResponse.toResponse` for a
response built by the factory (no URL resolver, `clearHistory` left
`false` by the constructor).  `resolveMergeProps` and
`resolveDeferredProps` run after `resolveProperties` on the possibly
mutated `this.props`, but the mutation is invisible to them: the
partial-with-empty-`Partial-Data` branch deletes exactly the
`Partial-Except`-listed top-level keys, which both metadata passes
filter out anyway (`resolveDeferredProps` is empty on every partial
request), and neither pass looks below top level, so both are computed
here from the original tree. -/
def toPage (component : String) (props : Fields) (version : String)
    (encryptHistory : Bool) (req : Request) : Page :=
  let m := resolveMergeProps props req
  { component := component
    props := resolveProperties component props req
    url := getUrl none req.pathname req.search
    version := version
    clearHistory := false
    encryptHistory := encryptHistory
    mergeProps := m.mergeProps
    deepMergeProps := m.deepMergeProps
    matchPropsOn := m.matchPropsOn
    deferredProps := resolveDeferredProps component props req }

/-! ## The mutation of `this.props` by `toResponse`

`resolvePartialProperties` is handed `this.props` itself.  On a
partial request with an empty `Partial-Data` header it never replaces
the record, so its `unsetNestedValue` calls delete from `this.props`
in place; the later passes then share structure with it:
`resolveAlways` builds a fresh top-level record, so the top-level
wrapper replacements of `resolvePropertyInstances` land only in that
copy, but its recursion into a nested record or array mutates the very
object `this.props` still points to.  On a non-partial request the
`Object.fromEntries` copy shares nested values the same way.  When
`Partial-Data` is non-empty the rebuilt record is fresh and the
top-level mapping of `this.props` is left intact (residual deep
sharing into selected subtrees is not needed by any claim and is not
modelled). -/

/-- The value a top-level entry of `this.props` holds after
`toResponse`: nested records and arrays were resolved in place through
sharing; every other value (primitive, wrapper instance, function) was
replaced only in the copy. -/
def sharedResolveTop : Val → Val
  | .vObj fs => .vObj (resolveFields fs)
  | .vArr es => .vArr (resolveElems es)
  | v => v

/-- The state of `this.props` after `toResponse`. -/
def storedPropsAfter (component : String) (props : Fields)
    (req : Request) : Fields :=
  if isPartialReq component req ∧ headerList req.partialDataHeader = [] then
    Fields.mapVals sharedResolveTop
      (exceptDelete props (headerList req.partialExceptHeader))
  else if ¬ isPartialReq component req then
    Fields.mapVals sharedResolveTop props
  else props

/-! ## Middleware helpers and the Hono adapter's version gate -/

/-- An emitted HTTP response, observed as status, headers and body. -/
structure HttpResponse where
  status : Nat
  headers : List (String × String)
  body : String
  deriving DecidableEq, Repr

/-- `InertiaResponseFactory.location(url)`: a 409 response carrying
the `X-Inertia-Location` header and an empty body. -/
def locationResponse (url : String) : HttpResponse :=
  { status := 409, headers := [("X-Inertia-Location", url)], body := "" }

/-- `handleVersionChange(url)` of the core middleware helpers:
`Inertia.location(url)`. -/
def handleVersionChange (url : String) : HttpResponse :=
  locationResponse url

/-- `referer || '/'`: the JS-falsy referers (absent header, empty
string) fall back to the root. -/
def refererOrRoot : Option String → String
  | none => "/"
  | some s => if s = "" then "/" else s

/-- `handleEmptyResponse(referer)` of the core middleware helpers:
`Inertia.location(referer || '/')`. -/
def handleEmptyResponse (referer : Option String) : HttpResponse :=
  locationResponse (refererOrRoot referer)

/-- The version gate of `inertiaHonoAdapter`: on an Inertia request
(truthy `X-Inertia` header) whose method is GET, with truthy client
and server versions that differ, the middleware returns
`handleVersionChange(c.req.url)` instead of running the handler;
otherwise (`none`) the request proceeds. -/
def honoVersionGate (method : String)
    (inertiaHdr reqVersion serverVersion : Option String)
    (url : String) : Option HttpResponse :=
  if ¬ truthyHeader inertiaHdr then none
  else if method = "GET" ∧ truthyHeader reqVersion ∧
      truthyHeader serverVersion ∧ reqVersion ≠ serverVersion then
    some (handleVersionChange url)
  else none

/-! ## Record lemmas -/

/-- Induction principle for `Fields` alone (the mutual recursor of the
`Val`/`Fields`/`Elems` block carries three motives, which the
`induction` tactic cannot use directly). -/
theorem Fields.induction {motive : Fields → Prop} (nil : motive .nil)
    (cons : ∀ k v r, motive r → motive (.cons k v r)) : ∀ f, motive f
  | .nil => nil
  | .cons k v r => cons k v r (Fields.induction nil cons r)

@[simp] theorem Fields.keys_nil : (Fields.nil).keys = [] := rfl

@[simp] theorem Fields.keys_cons (k : String) (v : Val) (r : Fields) :
    (Fields.cons k v r).keys = k :: r.keys := rfl

@[simp] theorem Fields.lookup_nil (k : String) :
    (Fields.nil).lookup k = none := rfl

theorem Fields.lookup_cons (k0 : String) (v : Val) (r : Fields) (k : String) :
    (Fields.cons k0 v r).lookup k = if k0 = k then some v else r.lookup k := rfl

theorem Fields.lookup_eq_none_iff (f : Fields) (k : String) :
    f.lookup k = none ↔ k ∉ f.keys := by
  induction f using Fields.induction with
  | nil => simp
  | cons k0 v r ih =>
      by_cases h : k0 = k
      · subst h; simp [Fields.lookup_cons]
      · simp [Fields.lookup_cons, h, ih, Ne.symm h]

theorem Fields.lookup_setKey_self (f : Fields) (k : String) (v : Val) :
    (f.setKey k v).lookup k = some v := by
  induction f using Fields.induction with
  | nil => simp [Fields.setKey, Fields.lookup_cons]
  | cons k0 w r ih =>
      by_cases h : k0 = k <;>
        simp [Fields.setKey, Fields.lookup_cons, h, ih]

theorem Fields.lookup_setKey_ne (f : Fields) (k a : String) (v : Val)
    (h : a ≠ k) : (f.setKey k v).lookup a = f.lookup a := by
  induction f using Fields.induction with
  | nil =>
      simp only [Fields.setKey, Fields.lookup_cons, Fields.lookup_nil]
      rw [if_neg (fun hh => h hh.symm)]
  | cons k0 w r ih =>
      by_cases h0 : k0 = k
      · subst h0
        have e1 : (Fields.cons k0 w r).setKey k0 v = Fields.cons k0 v r := by
          simp [Fields.setKey]
        rw [e1, Fields.lookup_cons, Fields.lookup_cons,
          if_neg (fun hh => h hh.symm), if_neg (fun hh => h hh.symm)]
      · have e1 : (Fields.cons k0 w r).setKey k v =
            Fields.cons k0 w (r.setKey k v) := by
          simp [Fields.setKey, h0]
        rw [e1, Fields.lookup_cons, Fields.lookup_cons, ih]

theorem Fields.keys_setKey_of_mem (f : Fields) (k : String) (v : Val)
    (h : k ∈ f.keys) : (f.setKey k v).keys = f.keys := by
  induction f using Fields.induction with
  | nil => simp at h
  | cons k0 w r ih =>
      by_cases h0 : k0 = k
      · simp [Fields.setKey, h0]
      · simp only [Fields.keys_cons, List.mem_cons] at h
        rcases h with h | h
        · exact absurd h.symm h0
        · simp [Fields.setKey, h0, ih h]

theorem Fields.keys_setKey_of_not_mem (f : Fields) (k : String) (v : Val)
    (h : k ∉ f.keys) : (f.setKey k v).keys = f.keys ++ [k] := by
  induction f using Fields.induction with
  | nil => simp [Fields.setKey]
  | cons k0 w r ih =>
      simp only [Fields.keys_cons, List.mem_cons] at h
      push_neg at h
      simp [Fields.setKey, Ne.symm h.1, ih h.2]

theorem Fields.nodup_keys_setKey (f : Fields) (k : String) (v : Val)
    (h : f.keys.Nodup) : (f.setKey k v).keys.Nodup := by
  by_cases hm : k ∈ f.keys
  · rw [Fields.keys_setKey_of_mem f k v hm]; exact h
  · rw [Fields.keys_setKey_of_not_mem f k v hm]
    exact h.append (List.nodup_singleton k)
      (fun a ha hb => hm ((List.mem_singleton.mp hb) ▸ ha))

theorem Fields.lookup_deleteKey_self (f : Fields) (k : String) :
    (f.deleteKey k).lookup k = none := by
  induction f using Fields.induction with
  | nil => simp [Fields.deleteKey]
  | cons k0 v r ih =>
      by_cases h : k0 = k <;>
        simp [Fields.deleteKey, Fields.lookup_cons, h, ih]

theorem Fields.lookup_deleteKey_ne (f : Fields) (k a : String) (h : a ≠ k) :
    (f.deleteKey k).lookup a = f.lookup a := by
  induction f using Fields.induction with
  | nil => simp [Fields.deleteKey]
  | cons k0 v r ih =>
      by_cases h0 : k0 = k
      · subst h0
        have e1 : (Fields.cons k0 v r).deleteKey k0 = r.deleteKey k0 := by
          simp [Fields.deleteKey]
        rw [e1, ih, Fields.lookup_cons, if_neg (fun hh => h hh.symm)]
      · have e1 : (Fields.cons k0 v r).deleteKey k =
            Fields.cons k0 v (r.deleteKey k) := by
          simp [Fields.deleteKey, h0]
        rw [e1, Fields.lookup_cons, Fields.lookup_cons, ih]

theorem Fields.keys_deleteKey (f : Fields) (k : String) :
    (f.deleteKey k).keys = f.keys.filter (fun a => a ≠ k) := by
  induction f using Fields.induction with
  | nil => simp [Fields.deleteKey]
  | cons k0 v r ih =>
      by_cases h : k0 = k <;>
        simp [Fields.deleteKey, h, ih, List.filter_cons]

theorem Fields.deleteKey_of_not_mem (f : Fields) (k : String)
    (h : k ∉ f.keys) : f.deleteKey k = f := by
  induction f using Fields.induction with
  | nil => simp [Fields.deleteKey]
  | cons k0 v r ih =>
      simp only [Fields.keys_cons, List.mem_cons] at h
      push_neg at h
      simp [Fields.deleteKey, Ne.symm h.1, ih h.2]

theorem Fields.toList_listToFields (l : List (String × Val)) :
    (listToFields l).toList = l := by
  induction l with
  | nil => simp [listToFields, Fields.toList]
  | cons kv r ih => cases kv; simp [listToFields, Fields.toList, ih]

theorem Fields.keys_listToFields (l : List (String × Val)) :
    (listToFields l).keys = l.map Prod.fst := by
  simp [Fields.keys, Fields.toList_listToFields]

theorem Fields.lookup_resolveFields (f : Fields) (k : String) :
    (resolveFields f).lookup k = (f.lookup k).map resolveVal := by
  induction f using Fields.induction with
  | nil => simp [resolveFields]
  | cons k0 v r ih =>
      by_cases h : k0 = k <;>
        simp [resolveFields, Fields.lookup_cons, h, ih]

theorem Fields.keys_mapVals (f : Fields) (g : Val → Val) :
    (f.mapVals g).keys = f.keys := by
  induction f using Fields.induction with
  | nil => simp [Fields.mapVals]
  | cons k0 v r ih => simp [Fields.mapVals, ih]

theorem Fields.lookup_mapVals_none (f : Fields) (g : Val → Val) (k : String)
    (h : f.lookup k = none) : (f.mapVals g).lookup k = none := by
  rw [Fields.lookup_eq_none_iff] at h ⊢
  rwa [Fields.keys_mapVals]

/-- Record concatenation, a proof-side helper for describing the
results of key-appending folds. -/
def Fields.appendF : Fields → Fields → Fields
  | .nil, g => g
  | .cons k v r, g => .cons k v (r.appendF g)

@[simp] theorem Fields.appendF_nil_left (g : Fields) :
    (Fields.nil).appendF g = g := rfl

theorem Fields.appendF_nil_right (f : Fields) : f.appendF .nil = f := by
  induction f using Fields.induction with
  | nil => rfl
  | cons k v r ih => simp [Fields.appendF, ih]

theorem Fields.appendF_assoc (f g h : Fields) :
    (f.appendF g).appendF h = f.appendF (g.appendF h) := by
  induction f using Fields.induction with
  | nil => rfl
  | cons k v r ih => simp [Fields.appendF, ih]

theorem Fields.keys_appendF (f g : Fields) :
    (f.appendF g).keys = f.keys ++ g.keys := by
  induction f using Fields.induction with
  | nil => rfl
  | cons k v r ih => simp [Fields.appendF, ih]

theorem Fields.lookup_appendF_of_none (f g : Fields) (k : String)
    (h : f.lookup k = none) : (f.appendF g).lookup k = g.lookup k := by
  induction f using Fields.induction with
  | nil => rfl
  | cons k0 v r ih =>
      rw [Fields.lookup_cons] at h
      by_cases h0 : k0 = k
      · simp [h0] at h
      · rw [if_neg h0] at h
        simp [Fields.appendF, Fields.lookup_cons, h0, ih h]

theorem Fields.mem_keys_setKey (f : Fields) (k a : String) (v : Val) :
    a ∈ (f.setKey k v).keys ↔ a ∈ f.keys ∨ a = k := by
  by_cases hm : k ∈ f.keys
  · rw [Fields.keys_setKey_of_mem f k v hm]
    constructor
    · exact Or.inl
    · rintro (h | rfl)
      · exact h
      · exact hm
  · rw [Fields.keys_setKey_of_not_mem f k v hm]; simp

theorem Fields.setKey_eq_appendF_of_not_mem (f : Fields) (k : String)
    (v : Val) (h : k ∉ f.keys) :
    f.setKey k v = f.appendF (.cons k v .nil) := by
  induction f using Fields.induction with
  | nil => rfl
  | cons k0 w r ih =>
      simp only [Fields.keys_cons, List.mem_cons] at h
      push_neg at h
      simp [Fields.setKey, Ne.symm h.1, Fields.appendF, ih h.2]

theorem Fields.assignAll_of_disjoint (src : Fields) :
    ∀ base : Fields, src.keys.Nodup → (∀ a ∈ src.keys, a ∉ base.keys) →
      Fields.assignAll base src = base.appendF src := by
  induction src using Fields.induction with
  | nil => intro base _ _; exact (Fields.appendF_nil_right base).symm
  | cons k v r ih =>
      intro base hnd hdis
      simp only [Fields.keys_cons, List.nodup_cons] at hnd
      have hk : k ∉ base.keys := hdis k (by simp)
      show Fields.assignAll (base.setKey k v) r = _
      rw [ih (base.setKey k v) hnd.2
        (fun a ha => by
          rw [Fields.mem_keys_setKey]
          push_neg
          exact ⟨hdis a (by simp [ha]), fun e => hnd.1 (e ▸ ha)⟩),
        Fields.setKey_eq_appendF_of_not_mem base k v hk,
        Fields.appendF_assoc]
      rfl

theorem Fields.assignAll_nil_base (src : Fields) (h : src.keys.Nodup) :
    Fields.assignAll .nil src = src := by
  rw [Fields.assignAll_of_disjoint src .nil h (by simp)]
  rfl

theorem Fields.lookup_assignAll_of_none (src : Fields) :
    ∀ (base : Fields) (k : String), src.lookup k = none →
      (Fields.assignAll base src).lookup k = base.lookup k := by
  induction src using Fields.induction with
  | nil => intro base k _; rfl
  | cons k0 v r ih =>
      intro base k h
      rw [Fields.lookup_cons] at h
      by_cases h0 : k0 = k
      · simp [h0] at h
      · rw [if_neg h0] at h
        show (Fields.assignAll (base.setKey k0 v) r).lookup k = _
        rw [ih (base.setKey k0 v) k h,
          Fields.lookup_setKey_ne base k0 k v (fun e => h0 e.symm)]

theorem Fields.lookup_assignAll_of_some (src : Fields) :
    ∀ (base : Fields) (k : String) (v : Val), src.keys.Nodup →
      src.lookup k = some v →
      (Fields.assignAll base src).lookup k = some v := by
  induction src using Fields.induction with
  | nil => intro base k v _ h; simp at h
  | cons k0 w r ih =>
      intro base k v hnd h
      simp only [Fields.keys_cons, List.nodup_cons] at hnd
      rw [Fields.lookup_cons] at h
      by_cases h0 : k0 = k
      · subst h0
        rw [if_pos rfl] at h
        have hr : r.lookup k0 = none :=
          (Fields.lookup_eq_none_iff r k0).mpr hnd.1
        show (Fields.assignAll (base.setKey k0 w) r).lookup k0 = some v
        rw [Fields.lookup_assignAll_of_none r (base.setKey k0 w) k0 hr,
          Fields.lookup_setKey_self]
        exact h
      · rw [if_neg h0] at h
        exact ih (base.setKey k0 w) k v hnd.2 h

theorem Fields.mem_keys_assignAll (src : Fields) :
    ∀ (base : Fields) (a : String),
      a ∈ (Fields.assignAll base src).keys ↔ a ∈ base.keys ∨ a ∈ src.keys := by
  induction src using Fields.induction with
  | nil => intro base a; simp [Fields.assignAll]
  | cons k v r ih =>
      intro base a
      show a ∈ (Fields.assignAll (base.setKey k v) r).keys ↔ _
      rw [ih (base.setKey k v) a, Fields.mem_keys_setKey]
      simp [or_assoc, or_comm, or_left_comm]

theorem Fields.keys_listToFields_filter_sublist (f : Fields)
    (p : String × Val → Bool) :
    (listToFields (f.toList.filter p)).keys.Sublist f.keys := by
  rw [Fields.keys_listToFields]
  exact (f.toList.filter_sublist).map Prod.fst

theorem Fields.lookup_listToFields_filter_of_none (f : Fields)
    (p : String × Val → Bool) (k : String) (h : f.lookup k = none) :
    (listToFields (f.toList.filter p)).lookup k = none := by
  rw [Fields.lookup_eq_none_iff] at h ⊢
  exact fun hmem => h ((Fields.keys_listToFields_filter_sublist f p).mem hmem)

theorem Fields.lookup_listToFields_filter_of_some (f : Fields)
    (p : String × Val → Bool) (k : String) (v : Val)
    (hnd : f.keys.Nodup) (h : f.lookup k = some v) :
    (listToFields (f.toList.filter p)).lookup k =
      if p (k, v) then some v else none := by
  induction f using Fields.induction with
  | nil => simp at h
  | cons k0 w r ih =>
      simp only [Fields.keys_cons, List.nodup_cons] at hnd
      show (listToFields (((k0, w) :: r.toList).filter p)).lookup k = _
      rw [Fields.lookup_cons] at h
      rw [List.filter_cons]
      by_cases h0 : k0 = k
      · subst h0
        rw [if_pos rfl] at h
        cases h
        have hnone : r.lookup k0 = none :=
          (Fields.lookup_eq_none_iff r k0).mpr hnd.1
        by_cases hp : p (k0, v)
        · simp only [hp, if_true, listToFields, Fields.lookup_cons, if_pos rfl]
        · simp only [hp, Bool.false_eq_true, if_false]
          exact Fields.lookup_listToFields_filter_of_none r p k0 hnone
      · rw [if_neg h0] at h
        by_cases hp : p (k0, w)
        · simp only [hp, if_true, listToFields, Fields.lookup_cons, if_neg h0]
          exact ih hnd.2 h
        · simp only [hp, Bool.false_eq_true, if_false]
          exact ih hnd.2 h

theorem Fields.deleteKey_listToFields (l : List (String × Val)) (k : String) :
    (listToFields l).deleteKey k =
      listToFields (l.filter (fun kv => kv.1 ≠ k)) := by
  induction l with
  | nil => rfl
  | cons kv r ih =>
      cases kv with
      | mk k0 v =>
          by_cases h : k0 = k <;>
            simp [listToFields, Fields.deleteKey, h, ih, List.filter_cons]

theorem resolveFields_listToFields (l : List (String × Val)) :
    resolveFields (listToFields l) =
      listToFields (l.map (fun kv => (kv.1, resolveVal kv.2))) := by
  induction l with
  | nil => rfl
  | cons kv r ih => cases kv; simp [listToFields, resolveFields, ih]

/-! ## Splitter lemmas -/

theorem splitChars_ne_nil (sep : Char) (cs : List Char) :
    splitChars sep cs ≠ [] := by
  induction cs with
  | nil => simp [splitChars]
  | cons c rest ih =>
      simp only [splitChars]
      by_cases h : c = sep
      · simp [h]
      · simp only [if_neg h]
        cases hr : splitChars sep rest with
        | nil => simp
        | cons a t => simp

theorem splitChars_eq_singleton (sep : Char) :
    ∀ cs ds : List Char, splitChars sep cs = [ds] → cs = ds := by
  intro cs
  induction cs with
  | nil =>
      intro ds h
      simp only [splitChars, List.cons.injEq] at h
      exact h.1
  | cons c rest ih =>
      intro ds h
      simp only [splitChars] at h
      by_cases hc : c = sep
      · rw [if_pos hc] at h
        have := (List.cons.injEq _ _ _ _).mp h
        exact absurd this.2 (splitChars_ne_nil sep rest)
      · rw [if_neg hc] at h
        cases hr : splitChars sep rest with
        | nil => exact absurd hr (splitChars_ne_nil sep rest)
        | cons a t =>
            rw [hr] at h
            have h2 := (List.cons.injEq _ _ _ _).mp h
            have ht : t = [] := h2.2
            have ha : splitChars sep rest = [a] := by rw [hr, ht]
            rw [← h2.1, ih a ha]


theorem strSplit_eq_singleton (s : String) (sep : Char) (k : String)
    (h : strSplit s sep = [k]) : s = k := by
  unfold strSplit at h
  cases hs : splitChars sep s.data with
  | nil => exact absurd hs (splitChars_ne_nil sep s.data)
  | cons a t =>
      rw [hs] at h
      cases t with
      | nil =>
          simp only [List.map] at h
          cases h
          have hda : s.data = a := splitChars_eq_singleton sep s.data a hs
          cases s with
          | mk data => exact congrArg String.mk hda
      | cons b t2 => simp at h

/-! ## Nested-path lemmas -/

theorem getNestedValue_single (f : Fields) (k : String) :
    getNestedValue (.vObj f) [k] = (f.lookup k).getD .vUndefined := by
  cases h : f.lookup k <;> simp [getNestedValue, h]

theorem setNestedValue_single (f : Fields) (k : String) (v : Val) :
    setNestedValue f [k] v = f.setKey k v := rfl

theorem unsetNestedValue_single (f : Fields) (k : String) :
    unsetNestedValue f [k] = f.deleteKey k := by
  show (if (f.lookup k).isSome then f.deleteKey k else f) = f.deleteKey k
  cases h : f.lookup k with
  | some v => simp [h]
  | none =>
      simp only [h, Option.isSome_none, Bool.false_eq_true, if_false]
      exact (Fields.deleteKey_of_not_mem f k
        ((Fields.lookup_eq_none_iff f k).mp h)).symm

theorem lookup_unsetNestedValue_none (f : Fields) (p : List String)
    (k : String) (h : f.lookup k = none) :
    (unsetNestedValue f p).lookup k = none := by
  match p with
  | [] => exact h
  | [k1] =>
      rw [unsetNestedValue_single]
      by_cases h1 : k1 = k
      · subst h1; exact Fields.lookup_deleteKey_self f k1
      · rw [Fields.lookup_deleteKey_ne f k1 k (fun e => h1 e.symm)]; exact h
  | k1 :: k2 :: rest =>
      show Fields.lookup
        (match f.lookup k1 with
          | some (.vObj inner) =>
              f.setKey k1 (.vObj (unsetNestedValue inner (k2 :: rest)))
          | _ => f) k = none
      cases hv : f.lookup k1 with
      | none => exact h
      | some w =>
          cases w with
          | vObj inner =>
              have h1 : k1 ≠ k := fun e => by rw [e, h] at hv; cases hv
              rw [Fields.lookup_setKey_ne f k1 k _ (fun e => h1 e.symm)]
              exact h
          | vNull => exact h
          | vUndefined => exact h
          | vBool b => exact h
          | vInt n => exact h
          | vStr s => exact h
          | vArr es => exact h
          | vFunc r => exact h
          | vPromise r => exact h
          | lazyP c => exact h
          | optionalP c => exact h
          | alwaysP v => exact h
          | deferP c g m dm mo => exact h
          | mergeP v m dm mo => exact h

theorem lookup_unsetNestedValue_nonobj (f : Fields) (p : List String)
    (k : String) (v : Val) (h : f.lookup k = some v)
    (hobj : ∀ g, v ≠ .vObj g) (hp : p ≠ [k]) :
    (unsetNestedValue f p).lookup k = some v := by
  match p with
  | [] => exact h
  | [k1] =>
      have h1 : k1 ≠ k := fun e => hp (by rw [e])
      rw [unsetNestedValue_single,
        Fields.lookup_deleteKey_ne f k1 k (fun e => h1 e.symm)]
      exact h
  | k1 :: k2 :: rest =>
      show Fields.lookup
        (match f.lookup k1 with
          | some (.vObj inner) =>
              f.setKey k1 (.vObj (unsetNestedValue inner (k2 :: rest)))
          | _ => f) k = some v
      cases hv : f.lookup k1 with
      | none => exact h
      | some w =>
          cases w with
          | vObj inner =>
              have h1 : k1 ≠ k := fun e => by
                rw [e, h] at hv
                exact hobj inner (by cases hv; rfl)
              rw [Fields.lookup_setKey_ne f k1 k _ (fun e => h1 e.symm)]
              exact h
          | vNull => exact h
          | vUndefined => exact h
          | vBool b => exact h
          | vInt n => exact h
          | vStr s => exact h
          | vArr es => exact h
          | vFunc r => exact h
          | vPromise r => exact h
          | lazyP c => exact h
          | optionalP c => exact h
          | alwaysP v2 => exact h
          | deferP c g m dm mo => exact h
          | mergeP v2 m dm mo => exact h

theorem nodup_keys_unsetNestedValue (f : Fields) (p : List String)
    (h : f.keys.Nodup) : (unsetNestedValue f p).keys.Nodup := by
  match p with
  | [] => exact h
  | [k1] =>
      rw [unsetNestedValue_single, Fields.keys_deleteKey]
      exact h.filter _
  | k1 :: k2 :: rest =>
      show (Fields.keys
        (match f.lookup k1 with
          | some (.vObj inner) =>
              f.setKey k1 (.vObj (unsetNestedValue inner (k2 :: rest)))
          | _ => f)).Nodup
      cases hv : f.lookup k1 with
      | none => exact h
      | some w =>
          cases w with
          | vObj inner => exact Fields.nodup_keys_setKey f k1 _ h
          | vNull => exact h
          | vUndefined => exact h
          | vBool b => exact h
          | vInt n => exact h
          | vStr s => exact h
          | vArr es => exact h
          | vFunc r => exact h
          | vPromise r => exact h
          | lazyP c => exact h
          | optionalP c => exact h
          | alwaysP v2 => exact h
          | deferP c g m dm mo => exact h
          | mergeP v2 m dm mo => exact h

/-! ## Fold characterizations for partial selection -/

theorem exceptDelete_eq_foldl_deleteKey (f : Fields) (es : List String)
    (hdot : ∀ e ∈ es, strSplit e '.' = [e]) :
    exceptDelete f es = es.foldl Fields.deleteKey f := by
  induction es generalizing f with
  | nil => rfl
  | cons e es ih =>
      show (e :: es).foldl
          (fun acc key => unsetNestedValue acc (strSplit key '.')) f = _
      rw [List.foldl_cons, List.foldl_cons, hdot e (by simp),
        unsetNestedValue_single]
      exact ih (f.deleteKey e) (fun x hx => hdot x (by simp [hx]))

theorem foldl_deleteKey_listToFields (es : List String) :
    ∀ l : List (String × Val),
      es.foldl Fields.deleteKey (listToFields l) =
        listToFields (l.filter (fun kv => ¬ es.contains kv.1)) := by
  induction es with
  | nil => intro l; simp
  | cons e es ih =>
      intro l
      rw [List.foldl_cons, Fields.deleteKey_listToFields, ih,
        List.filter_filter]
      congr 1
      apply List.filter_congr
      intro kv _
      by_cases he : kv.1 = e <;> by_cases hc : es.contains kv.1 <;>
        simp [List.contains_cons, he, hc]

theorem lookup_exceptDelete_none (es : List String) (f : Fields)
    (k : String) (h : f.lookup k = none) :
    (exceptDelete f es).lookup k = none := by
  induction es generalizing f with
  | nil => exact h
  | cons e es ih =>
      show ((e :: es).foldl
        (fun acc key => unsetNestedValue acc (strSplit key '.')) f).lookup k
          = none
      rw [List.foldl_cons]
      exact ih _ (lookup_unsetNestedValue_none f _ k h)

theorem lookup_exceptDelete_nonobj (es : List String) (f : Fields)
    (k : String) (v : Val) (h : f.lookup k = some v)
    (hobj : ∀ g, v ≠ .vObj g) (hk : ∀ e ∈ es, strSplit e '.' ≠ [k]) :
    (exceptDelete f es).lookup k = some v := by
  induction es generalizing f with
  | nil => exact h
  | cons e es ih =>
      show ((e :: es).foldl
        (fun acc key => unsetNestedValue acc (strSplit key '.')) f).lookup k
          = some v
      rw [List.foldl_cons]
      exact ih _
        (lookup_unsetNestedValue_nonobj f _ k v h hobj (hk e (by simp)))
        (fun x hx => hk x (by simp [hx]))

theorem nodup_keys_exceptDelete (es : List String) (f : Fields)
    (h : f.keys.Nodup) : (exceptDelete f es).keys.Nodup := by
  induction es generalizing f with
  | nil => exact h
  | cons e es ih =>
      show (((e :: es).foldl
        (fun acc key => unsetNestedValue acc (strSplit key '.')) f)).keys.Nodup
      rw [List.foldl_cons]
      exact ih _ (nodup_keys_unsetNestedValue f _ h)

theorem onlySelect_fold (props : Fields) :
    ∀ (ks : List String) (acc : Fields), ks.Nodup →
      (∀ k ∈ ks, strSplit k '.' = [k]) →
      (∀ k ∈ ks, k ∉ acc.keys) →
      ks.foldl (fun acc2 key =>
          setNestedValue acc2 (strSplit key '.')
            (deferInvokeStep (getNestedValue (.vObj props) (strSplit key '.'))))
        acc
      = acc.appendF (listToFields (ks.map (fun k =>
          (k, deferInvokeStep ((props.lookup k).getD .vUndefined))))) := by
  intro ks
  induction ks with
  | nil =>
      intro acc _ _ _
      simp [listToFields, Fields.appendF_nil_right]
  | cons k ks ih =>
      intro acc hnd hdot hdis
      rw [List.foldl_cons, hdot k (by simp), setNestedValue_single,
        getNestedValue_single,
        Fields.setKey_eq_appendF_of_not_mem acc k _ (hdis k (by simp)),
        ih (acc.appendF (.cons k _ .nil)) hnd.of_cons
          (fun x hx => hdot x (by simp [hx]))
          (fun x hx => by
            rw [Fields.keys_appendF]
            simp only [List.mem_append, Fields.keys_cons, Fields.keys_nil,
              List.mem_cons, List.not_mem_nil, or_false]
            push_neg
            exact ⟨hdis x (by simp [hx]),
              fun e => (List.nodup_cons.mp hnd).1 (e ▸ hx)⟩),
        Fields.appendF_assoc]
      rfl

theorem onlySelect_eq (props : Fields) (ks : List String) (hnd : ks.Nodup)
    (hdot : ∀ k ∈ ks, strSplit k '.' = [k]) :
    onlySelect props ks
      = listToFields (ks.map (fun k =>
          (k, deferInvokeStep ((props.lookup k).getD .vUndefined)))) := by
  have h := onlySelect_fold props ks Fields.nil hnd hdot (by simp)
  simpa [onlySelect] using h

theorem filter_map_fst (g : String → Val) (q : String → Bool)
    (ks : List String) :
    (ks.map (fun k => (k, g k))).filter (fun kv => q kv.1)
      = (ks.filter q).map (fun k => (k, g k)) := by
  induction ks with
  | nil => rfl
  | cons k ks ih =>
      by_cases h : q k <;> simp [List.filter_cons, h, ih]

/-! ## Concrete trees and requests used by the claims -/

/-- The tree `{a: 1, b: 2, c: 3}`. -/
def props3 : Fields :=
  .cons "a" (.vInt 1) (.cons "b" (.vInt 2) (.cons "c" (.vInt 3) .nil))

/-- A partial request for component `Home` with `Partial-Data: a,c`. -/
def reqOnlyAC : Request :=
  { partialComponentHeader := some "Home", partialDataHeader := some "a,c" }

/-- The same with `Partial-Except: c` on top. -/
def reqOnlyACexC : Request :=
  { partialComponentHeader := some "Home", partialDataHeader := some "a,c",
    partialExceptHeader := some "c" }

/-- A plain full-page Inertia request (no partial headers). -/
def fullReq : Request := { inertiaHeader := some "true" }

/-- The tree `{m: Merge(5).deepMerge().matchOn("id")}`. -/
def propsM : Fields :=
  .cons "m" ((mergePropNew (.vInt 5)).deepMergeB.matchOnB "id") .nil

/-- The tree `{x: Defer(cb,"g1"), y: Defer(cb,"g1"), z: Defer(cb)}`. -/
def propsD : Fields :=
  .cons "x" (deferPropNew (.vInt 1) (some "g1"))
    (.cons "y" (deferPropNew (.vInt 2) (some "g1"))
      (.cons "z" (deferPropNew (.vInt 3) none) .nil))

/-- The tree `{a: {d: Defer(cb)}}`: a Defer wrapper at nesting depth 1. -/
def propsNest : Fields :=
  .cons "a" (.vObj (.cons "d" (deferPropNew (.vInt 1) none) .nil)) .nil

/-- The tree `{a: Always(1)}`. -/
def propsAl : Fields := .cons "a" (.alwaysP (.vInt 1)) .nil

/-- A partial request for `Home` with `Partial-Except: a` and no
`Partial-Data`. -/
def reqExA : Request :=
  { partialComponentHeader := some "Home", partialExceptHeader := some "a" }

/-- The tree `{p: () => Promise.resolve(5)}`: a plain callback
returning a promise. -/
def propsP : Fields := .cons "p" (.vFunc (.vPromise (.vInt 5))) .nil

/-- The tree `{a: 1, b: 2}`. -/
def propsAB : Fields := .cons "a" (.vInt 1) (.cons "b" (.vInt 2) .nil)

/-- The tree `{u: {a: 1, b: 2}, c: 3}`. -/
def propsU : Fields :=
  .cons "u" (.vObj (.cons "a" (.vInt 1) (.cons "b" (.vInt 2) .nil)))
    (.cons "c" (.vInt 3) .nil)

/-- A partial request for `Home` selecting the dotted path `u.a`. -/
def reqOnlyUA : Request :=
  { partialComponentHeader := some "Home", partialDataHeader := some "u.a" }

/-! ## C3: the empty-response handler -/

/-- C3 counterexample: the claim says an Inertia request whose handler
yields an empty 200 body is answered with a 302 redirect whose target
is the `Referer` URL.  The core `handleEmptyResponse` helper (the code
the empty-body interception calls) instead returns `Inertia.location`,
a 409 response that carries the target in `X-Inertia-Location`: with
`Referer: /prev` the emitted status is 409, not 302, and no `Location`
header is set. -/
theorem emptyResponseNot302 :
    (handleEmptyResponse (some "/prev")).status = 409 ∧
    (handleEmptyResponse (some "/prev")).status ≠ 302 ∧
    (handleEmptyResponse (some "/prev")).headers
      = [("X-Inertia-Location", "/prev")] := by
  refine ⟨rfl, by decide, rfl⟩

/-- C3 as amended: for every Inertia request that would otherwise
produce a 200 response with a literally empty body, the emitted
response is `Inertia.location(referer || '/')`: status 409, empty
body, and the `X-Inertia-Location` header set to the `Referer`
header's URL, or to `/` when that header is absent or empty. -/
theorem emptyResponseIsLocation (referer : Option String) :
    (handleEmptyResponse referer).status = 409 ∧
    (handleEmptyResponse referer).body = "" ∧
    (handleEmptyResponse referer).headers
      = [("X-Inertia-Location",
          match referer with
          | some s => if s = "" then "/" else s
          | none => "/")] := by
  refine ⟨rfl, rfl, ?_⟩
  cases referer with
  | none => rfl
  | some s =>
      by_cases h : s = "" <;>
        simp [handleEmptyResponse, refererOrRoot, locationResponse, h]

/-! ## C8: the version-mismatch gate -/

/-- C8: a GET request carrying the `X-Inertia` marker whose
`X-Inertia-Version` header is non-empty and differs from the
non-empty server version is answered by the Hono adapter with the
`location()` response: status 409, `X-Inertia-Location` equal to the
original request URL, and an empty body, instead of the normal page
response. -/
theorem versionMismatch409 (inertia reqVersion serverVersion : String)
    (url : String) (hi : inertia ≠ "") (hr : reqVersion ≠ "")
    (hs : serverVersion ≠ "") (hne : reqVersion ≠ serverVersion) :
    honoVersionGate "GET" (some inertia) (some reqVersion)
        (some serverVersion) url
      = some { status := 409, headers := [("X-Inertia-Location", url)],
               body := "" } := by
  unfold honoVersionGate
  rw [if_neg (by simp [truthyHeader, hi]),
    if_pos ⟨rfl, by simp [truthyHeader, hr], by simp [truthyHeader, hs],
      by simp [hne]⟩]
  rfl

/-- C8 witness. -/
theorem versionMismatch409Witness :
    honoVersionGate "GET" (some "true") (some "old") (some "new") "/u?x=1"
      = some { status := 409, headers := [("X-Inertia-Location", "/u?x=1")],
               body := "" } :=
  versionMismatch409 "true" "old" "new" "/u?x=1" (by decide) (by decide)
    (by decide) (by decide)

/-! ## C9: URL trailing-slash normalization -/

/-- The url field as claim C9 words it: the request path with exactly
one trailing slash removed unless the path is exactly `/`, with the
query string appended verbatim after the path. -/
def urlClaimC9 (pathname search : String) : String :=
  (if pathname = "/" then pathname
   else if pathname.data.getLast? = some '/' then String.mk pathname.data.dropLast
   else pathname) ++ search

/-- C9 counterexample: for path `/user/123/` with query `?x=1` the
claim's reading gives `/user/123?x=1` (slash stripped from the path,
query verbatim), but `getUrl` normalizes the concatenated
path-plus-query string — which does not end in a slash — and so emits
`/user/123/?x=1`, keeping the path's trailing slash. -/
theorem urlTrailingSlashQueryCounterexample :
    getUrl none "/user/123/" "?x=1" = "/user/123/?x=1" ∧
    urlClaimC9 "/user/123/" "?x=1" = "/user/123?x=1" ∧
    ("/user/123/?x=1" : String) ≠ "/user/123?x=1" := by
  refine ⟨rfl, rfl, by decide⟩

theorem stringDataEqNil (s : String) (h : s.data = []) : s = "" :=
  String.ext (by rw [h])

/-- C9 as amended: the normalization acts on the concatenated
path-plus-query string, removing exactly one trailing slash when that
whole string ends in `/` and is longer than one character.  Hence on a
query-free URL the claim holds as stated (path slash stripped, root
`/` kept), while a non-empty query that does not itself end in `/`
shields the path: path and query are emitted verbatim, trailing path
slash included. -/
theorem urlNormalizationAmended (pathname search : String) :
    (search = "" → getUrl none pathname search = urlClaimC9 pathname "") ∧
    (search ≠ "" → search.data.getLast? ≠ some '/' →
      getUrl none pathname search = pathname ++ search) := by
  constructor
  · intro hs
    subst hs
    show finishUrlWithTrailingSlash (pathname ++ "") = _
    rw [String.append_empty]
    unfold urlClaimC9
    rw [String.append_empty]
    by_cases hroot : pathname = "/"
    · subst hroot; rfl
    · rw [if_neg hroot]
      by_cases hsl : pathname.data.getLast? = some '/'
      · have hlen : pathname.length > 1 := by
          match hd : pathname.data with
          | [] => rw [hd] at hsl; cases hsl
          | [c] =>
              rw [hd] at hsl
              simp only [List.getLast?_singleton, Option.some.injEq] at hsl
              exact absurd (String.ext (by rw [hd, hsl])) hroot
          | c1 :: c2 :: rest =>
              show pathname.data.length > 1
              rw [hd]; simp
        unfold finishUrlWithTrailingSlash
        rw [if_pos ⟨hlen, hsl⟩, if_pos hsl]
      · unfold finishUrlWithTrailingSlash
        rw [if_neg (fun hh => hsl hh.2), if_neg hsl]
  · intro hs hsl
    show finishUrlWithTrailingSlash (pathname ++ search) = _
    have hd : (pathname ++ search).data.getLast? ≠ some '/' := by
      rw [String.data_append, List.getLast?_append]
      have hne : search.data ≠ [] := fun hh => hs (stringDataEqNil search hh)
      match hg : search.data.getLast? with
      | none =>
          exact absurd (List.getLast?_eq_none_iff.mp hg) hne
      | some c =>
          rw [hg] at hsl
          simpa [Option.or] using hsl
    rw [finishUrlWithTrailingSlash, if_neg (fun hh => hd hh.2)]

/-- C9 witness: the amended theorem at the claim's own examples. -/
theorem urlNormalizationWitness :
    getUrl none "/user/123/" "" = "/user/123" ∧
    getUrl none "/" "" = "/" ∧
    getUrl none "/user/123" "?x=1" = "/user/123?x=1" := by
  refine ⟨?_, ?_, ?_⟩
  · rw [(urlNormalizationAmended "/user/123/" "").1 rfl]; rfl
  · rw [(urlNormalizationAmended "/" "").1 rfl]; rfl
  · rw [(urlNormalizationAmended "/user/123" "?x=1").2 (by decide) (by decide)]
    decide

/-! ## C2: partial selection -/

/-- C2: for a partial request (`Partial-Component` equal to the
component) with a non-empty `Partial-Data` list, the resolved props
are exactly the listed paths — each looked up in the full tree, Defer
variants resolved on selection — with every `Partial-Except` path then
deleted, so `except` further narrows an `only` selection.  The general
part characterizes the resolved record for top-level (dot-free)
distinct keys on trees without Always props (an Always prop would be
reinjected afterwards, which claim C6 covers); the final conjunct
checks the dotted-path case on a nested tree, where the selection
creates nested structure as needed. -/
theorem partialSelectionPrecision :
    (∀ (component : String) (props : Fields) (req : Request)
        (only except : List String),
      isPartialReq component req = true →
      headerList req.partialDataHeader = only →
      headerList req.partialExceptHeader = except →
      only ≠ [] →
      (∀ k ∈ only, strSplit k '.' = [k]) →
      (∀ e ∈ except, strSplit e '.' = [e]) →
      only.Nodup →
      (∀ kv ∈ props.toList, kv.2.isAlways = false) →
      resolveProperties component props req
        = listToFields ((only.filter (fun k => ¬ except.contains k)).map
            (fun k => (k, resolveVal (deferInvokeStep
              ((props.lookup k).getD .vUndefined)))))) ∧
    resolveProperties "Home" propsU reqOnlyUA
      = .cons "u" (.vObj (.cons "a" (.vInt 1) .nil)) .nil := by
  constructor
  · intro component props req only except hpart honly hexc hne hdotO hdotE
      hnd halw
    unfold resolveProperties resolvePartialProperties
    rw [hpart]
    simp only [Bool.true_eq_false, not_true_eq_false, if_false, honly, hexc,
      if_pos hne, reduceIte]
    rw [if_neg (fun hh => hne hh.2)]
    rw [onlySelect_eq props only hnd hdotO,
      exceptDelete_eq_foldl_deleteKey _ except hdotE,
      foldl_deleteKey_listToFields,
      filter_map_fst (fun k => deferInvokeStep ((props.lookup k).getD .vUndefined))
        (fun k => ¬ except.contains k) only]
    unfold resolveAlways
    have hfilt : props.toList.filter (fun kv => kv.2.isAlways) = [] :=
      List.filter_eq_nil_iff.mpr (fun kv hkv => by simp [halw kv hkv])
    rw [hfilt]
    show resolveFields (Fields.assignAll .nil _) = _
    rw [Fields.assignAll_nil_base _ (by
      rw [Fields.keys_listToFields, List.map_map]
      have : (Prod.fst ∘ fun k =>
          (k, deferInvokeStep ((props.lookup k).getD .vUndefined))) = id := rfl
      rw [this, List.map_id]
      exact hnd.filter _)]
    rw [resolveFields_listToFields, List.map_map]
    rfl
  · rfl

/-- C2 witness: the claim's own examples, through the general theorem:
`{a:1,b:2,c:3}` with `Partial-Data: a,c` resolves to `{a:1,c:3}`, and
adding `Partial-Except: c` yields `{a:1}`. -/
theorem partialSelectionWitness :
    resolveProperties "Home" props3 reqOnlyAC
      = .cons "a" (.vInt 1) (.cons "c" (.vInt 3) .nil) ∧
    resolveProperties "Home" props3 reqOnlyACexC
      = .cons "a" (.vInt 1) .nil := by
  constructor
  · rw [partialSelectionPrecision.1 "Home" props3 reqOnlyAC ["a", "c"] []
      rfl rfl rfl (by decide) (by decide) (by decide) (by decide) (by decide)]
    rfl
  · rw [partialSelectionPrecision.1 "Home" props3 reqOnlyACexC ["a", "c"]
      ["c"] rfl rfl rfl (by decide) (by decide) (by decide) (by decide)
      (by decide)]
    rfl

/-! ## C4: merge metadata -/

theorem Fields.mem_toList_key (f : Fields) (k : String) (v : Val)
    (h : (k, v) ∈ f.toList) : k ∈ f.keys :=
  List.mem_map_of_mem Prod.fst h

theorem Fields.lookup_eq_some_iff_mem (f : Fields) (k : String) (v : Val)
    (hnd : f.keys.Nodup) : f.lookup k = some v ↔ (k, v) ∈ f.toList := by
  induction f using Fields.induction with
  | nil => simp [Fields.toList]
  | cons k0 w r ih =>
      simp only [Fields.keys_cons, List.nodup_cons] at hnd
      rw [Fields.lookup_cons]
      show _ ↔ (k, v) ∈ (k0, w) :: r.toList
      by_cases h0 : k0 = k
      · subst h0
        rw [if_pos rfl]
        simp only [List.mem_cons, Option.some.injEq, Prod.mk.injEq]
        constructor
        · rintro rfl; exact Or.inl ⟨trivial, rfl⟩
        · rintro (⟨_, h⟩ | h)
          · rw [h]
          · exact absurd (Fields.mem_toList_key r k0 v h) hnd.1
      · rw [if_neg h0, ih hnd.2]
        simp only [List.mem_cons, Prod.mk.injEq]
        constructor
        · exact Or.inr
        · rintro (⟨h, _⟩ | h)
          · exact absurd h.symm h0
          · exact h

theorem optList_getD (l : List String) : (optList l).getD [] = l := by
  by_cases h : l = [] <;> simp [optList, h]

theorem optList_eq_none_iff (l : List String) : optList l = none ↔ l = [] := by
  by_cases h : l = [] <;> simp [optList, h]

/-- The selection predicate of claim C4: the key holds a Merge or
Defer variant with `shouldMerge()` true, is not listed in the `Reset`
header, and passes the same only/except header filters as partial
selection. -/
def SelectedMergeKey (props : Fields) (req : Request) (k : String)
    (v : Val) : Prop :=
  props.lookup k = some v ∧ v.isMergeableWrapper = true ∧
  v.shouldMergeB = true ∧
  k ∉ headerList req.resetHeader ∧
  (headerList req.partialDataHeader = [] ∨
    k ∈ headerList req.partialDataHeader) ∧
  k ∉ headerList req.partialExceptHeader

theorem mem_mergeableEntries (props : Fields) (req : Request) (k : String)
    (v : Val) (hnd : props.keys.Nodup) :
    (k, v) ∈ mergeableEntries props req ↔ SelectedMergeKey props req k v := by
  unfold mergeableEntries SelectedMergeKey
  simp only [List.mem_filter, decide_eq_true_eq, List.elem_iff,
    ← Fields.lookup_eq_some_iff_mem props k v hnd]
  tauto

/-- C4: the page's merge metadata is computed from the original tree:
the selected keys are exactly the Merge/Defer-valued keys with
`shouldMerge()` true that pass the reset/only/except header filters;
those with `shouldDeepMerge()` false populate `mergeProps`, the others
`deepMergeProps`; every selected key contributes a `key.strategy`
entry per `matchesOn()` strategy; each field is omitted when its list
is empty.  The final conjuncts check the claim's example: for
`{m: Merge(5).deepMerge().matchOn("id")}` on a full request,
`deepMergeProps = ["m"]`, `matchPropsOn = ["m.id"]`, `mergeProps` is
absent, and the resolved `props.m` is `5`. -/
theorem mergeMetadata :
    (∀ (props : Fields) (req : Request), props.keys.Nodup →
      ((∀ k, k ∈ (resolveMergeProps props req).mergeProps.getD [] ↔
          ∃ v, SelectedMergeKey props req k v ∧ v.shouldDeepMergeB = false) ∧
       (∀ k, k ∈ (resolveMergeProps props req).deepMergeProps.getD [] ↔
          ∃ v, SelectedMergeKey props req k v ∧ v.shouldDeepMergeB = true) ∧
       (∀ e, e ∈ (resolveMergeProps props req).matchPropsOn.getD [] ↔
          ∃ k v s, SelectedMergeKey props req k v ∧ s ∈ v.matchesOnL ∧
            e = k ++ "." ++ s) ∧
       ((resolveMergeProps props req).mergeProps = none ↔
          ∀ k v, ¬(SelectedMergeKey props req k v ∧
            v.shouldDeepMergeB = false)) ∧
       ((resolveMergeProps props req).deepMergeProps = none ↔
          ∀ k v, ¬(SelectedMergeKey props req k v ∧
            v.shouldDeepMergeB = true)) ∧
       ((resolveMergeProps props req).matchPropsOn = none ↔
          ∀ e k v s, ¬(SelectedMergeKey props req k v ∧ s ∈ v.matchesOnL ∧
            e = k ++ "." ++ s)))) ∧
    (toPage "Home" propsM "v1" false fullReq).mergeProps = none ∧
    (toPage "Home" propsM "v1" false fullReq).deepMergeProps = some ["m"] ∧
    (toPage "Home" propsM "v1" false fullReq).matchPropsOn = some ["m.id"] ∧
    (toPage "Home" propsM "v1" false fullReq).props.lookup "m"
      = some (.vInt 5) := by
  refine ⟨?_, rfl, rfl, rfl, rfl⟩
  intro props req hnd
  have hreg : ∀ k, k ∈ ((mergeableEntries props req).filter
        (fun kv => ¬ kv.2.shouldDeepMergeB)).map Prod.fst ↔
      ∃ v, SelectedMergeKey props req k v ∧ v.shouldDeepMergeB = false := by
    intro k
    simp only [List.mem_map, List.mem_filter, decide_eq_true_eq,
      Bool.not_eq_true]
    constructor
    · rintro ⟨⟨k1, v⟩, ⟨hm, hd⟩, rfl⟩
      exact ⟨v, (mem_mergeableEntries props req k1 v hnd).mp hm, hd⟩
    · rintro ⟨v, hs, hd⟩
      exact ⟨(k, v), ⟨(mem_mergeableEntries props req k v hnd).mpr hs, hd⟩,
        rfl⟩
  have hdeep : ∀ k, k ∈ ((mergeableEntries props req).filter
        (fun kv => kv.2.shouldDeepMergeB)).map Prod.fst ↔
      ∃ v, SelectedMergeKey props req k v ∧ v.shouldDeepMergeB = true := by
    intro k
    simp only [List.mem_map, List.mem_filter]
    constructor
    · rintro ⟨⟨k1, v⟩, ⟨hm, hd⟩, rfl⟩
      exact ⟨v, (mem_mergeableEntries props req k1 v hnd).mp hm, hd⟩
    · rintro ⟨v, hs, hd⟩
      exact ⟨(k, v), ⟨(mem_mergeableEntries props req k v hnd).mpr hs, hd⟩,
        rfl⟩
  have hmatch : ∀ e, e ∈ ((mergeableEntries props req).map (fun kv =>
        kv.2.matchesOnL.map (fun strategy => kv.1 ++ "." ++ strategy))).flatten
      ↔ ∃ k v s, SelectedMergeKey props req k v ∧ s ∈ v.matchesOnL ∧
        e = k ++ "." ++ s := by
    intro e
    simp only [List.mem_flatten, List.mem_map]
    constructor
    · rintro ⟨l, ⟨⟨k1, v⟩, hm, rfl⟩, he⟩
      rcases List.mem_map.mp he with ⟨s, hsm, rfl⟩
      exact ⟨k1, v, s, (mem_mergeableEntries props req k1 v hnd).mp hm, hsm,
        rfl⟩
    · rintro ⟨k, v, s, hs, hsm, rfl⟩
      exact ⟨v.matchesOnL.map (fun strategy => k ++ "." ++ strategy),
        ⟨(k, v), (mem_mergeableEntries props req k v hnd).mpr hs, rfl⟩,
        List.mem_map_of_mem _ hsm⟩
  refine ⟨?_, ?_, ?_, ?_, ?_, ?_⟩
  · intro k
    show k ∈ (optList _).getD [] ↔ _
    rw [optList_getD]
    exact hreg k
  · intro k
    show k ∈ (optList _).getD [] ↔ _
    rw [optList_getD]
    exact hdeep k
  · intro e
    show e ∈ (optList _).getD [] ↔ _
    rw [optList_getD]
    exact hmatch e
  · show optList _ = none ↔ _
    rw [optList_eq_none_iff, List.eq_nil_iff_forall_not_mem]
    constructor
    · intro h k v hkv
      exact h k ((hreg k).mpr ⟨v, hkv⟩)
    · intro h k hk
      rcases (hreg k).mp hk with ⟨v, hkv⟩
      exact h k v hkv
  · show optList _ = none ↔ _
    rw [optList_eq_none_iff, List.eq_nil_iff_forall_not_mem]
    constructor
    · intro h k v hkv
      exact h k ((hdeep k).mpr ⟨v, hkv⟩)
    · intro h k hk
      rcases (hdeep k).mp hk with ⟨v, hkv⟩
      exact h k v hkv
  · show optList _ = none ↔ _
    rw [optList_eq_none_iff, List.eq_nil_iff_forall_not_mem]
    constructor
    · intro h e k v s hkv
      exact h e ((hmatch e).mpr ⟨k, v, s, hkv⟩)
    · intro h e he
      rcases (hmatch e).mp he with ⟨k, v, s, hkv⟩
      exact h e k v s hkv

/-! ## First-load filtering helpers (shared by C5 and C6) -/

theorem resolveProperties_unfold (component : String) (thisProps : Fields)
    (req : Request) :
    resolveProperties component thisProps req =
      resolveFields (resolveAlways
        (if isPartialReq component req ∧ headerList req.partialDataHeader = []
         then resolvePartialProperties component thisProps req else thisProps)
        (resolvePartialProperties component thisProps req)) := rfl

theorem resolvePartialProperties_full (component : String) (props : Fields)
    (req : Request) (h : isPartialReq component req = false) :
    resolvePartialProperties component props req
      = listToFields (props.toList.filter
          (fun kv => ¬ kv.2.isIgnoreFirstLoad)) := by
  unfold resolvePartialProperties
  rw [h]
  simp

theorem ignore_not_always (v : Val) (h : v.isIgnoreFirstLoad = true) :
    v.isAlways = false := by
  cases v <;> simp_all [Val.isIgnoreFirstLoad, Val.isAlways]

/-- On a non-partial request, a `Lazy`/`Optional`/`Defer`-valued key
is absent from the resolved props: the first-load filter drops it, the
always layer cannot reintroduce it, and deep resolution preserves
absence. -/
theorem lookup_resolveProperties_ignored (component : String)
    (props : Fields) (req : Request) (k : String) (v : Val)
    (hnd : props.keys.Nodup) (hfull : isPartialReq component req = false)
    (hv : props.lookup k = some v) (hig : v.isIgnoreFirstLoad = true) :
    (resolveProperties component props req).lookup k = none := by
  rw [resolveProperties_unfold, if_neg (fun hh => by rw [hfull] at hh; cases hh.1)]
  have hp1 : (resolvePartialProperties component props req).lookup k = none := by
    rw [resolvePartialProperties_full component props req hfull,
      Fields.lookup_listToFields_filter_of_some props _ k v hnd hv]
    simp [hig]
  rw [Fields.lookup_resolveFields]
  unfold resolveAlways
  rw [Fields.lookup_assignAll_of_none _ _ _ hp1,
    Fields.lookup_listToFields_filter_of_some props _ k v hnd hv]
  simp [ignore_not_always v hig]

/-! ## C5: deferred grouping -/

theorem mem_addDeferKey (gs : List (String × List String))
    (g0 k0 g k : String) :
    (∃ ks, (g, ks) ∈ addDeferKey gs g0 k0 ∧ k ∈ ks) ↔
      ((∃ ks, (g, ks) ∈ gs ∧ k ∈ ks) ∨ (g = g0 ∧ k = k0)) := by
  unfold addDeferKey
  by_cases hany : gs.any (fun p => p.1 = g0)
  · rw [if_pos hany]
    constructor
    · rintro ⟨ks, hmem, hk⟩
      rcases List.mem_map.mp hmem with ⟨⟨g1, ks1⟩, hg1, heq⟩
      by_cases hgg : g1 = g0
      · rw [if_pos (by simpa using hgg)] at heq
        rw [Prod.mk.injEq] at heq
        rcases heq with ⟨he1, he2⟩
        rw [← he2] at hk
        rcases List.mem_append.mp hk with hk | hk
        · exact Or.inl ⟨ks1, he1 ▸ hg1, hk⟩
        · exact Or.inr ⟨he1 ▸ hgg, List.mem_singleton.mp hk⟩
      · rw [if_neg (by simpa using hgg)] at heq
        exact Or.inl ⟨ks, heq ▸ hg1, hk⟩
    · rintro (⟨ks, hmem, hk⟩ | ⟨hg, hk⟩)
      · by_cases hgg : g = g0
        · refine ⟨ks ++ [k0], List.mem_map.mpr ⟨(g, ks), hmem, ?_⟩,
            List.mem_append_left _ hk⟩
          rw [if_pos (by simpa using hgg)]
        · refine ⟨ks, List.mem_map.mpr ⟨(g, ks), hmem, ?_⟩, hk⟩
          rw [if_neg (by simpa using hgg)]
      · rcases List.any_eq_true.mp hany with ⟨p, hp, hpg⟩
        simp only [decide_eq_true_eq] at hpg
        refine ⟨p.2 ++ [k0], List.mem_map.mpr ⟨p, hp, ?_⟩, ?_⟩
        · rw [if_pos (by simpa using hpg), hpg, ← hg]
        · rw [hk]
          exact List.mem_append_right _ (by simp)
  · rw [if_neg hany]
    constructor
    · rintro ⟨ks, hmem, hk⟩
      rcases List.mem_append.mp hmem with hmem | hmem
      · exact Or.inl ⟨ks, hmem, hk⟩
      · have heq := List.mem_singleton.mp hmem
        rw [Prod.mk.injEq] at heq
        rw [heq.2] at hk
        exact Or.inr ⟨heq.1, List.mem_singleton.mp hk⟩
    · rintro (⟨ks, hmem, hk⟩ | ⟨hg, hk⟩)
      · exact ⟨ks, List.mem_append_left _ hmem, hk⟩
      · refine ⟨[k0], List.mem_append_right _ ?_, by simp [hk]⟩
        simp [hg]

theorem mem_deferGroupsFold (l : List (String × Val)) :
    ∀ (acc : List (String × List String)) (g k : String),
      (∃ ks, (g, ks) ∈ l.foldl
          (fun gs kv => addDeferKey gs kv.2.deferGroupD kv.1) acc ∧ k ∈ ks) ↔
        ((∃ ks, (g, ks) ∈ acc ∧ k ∈ ks) ∨
          ∃ v, (k, v) ∈ l ∧ v.deferGroupD = g) := by
  induction l with
  | nil => intro acc g k; simp
  | cons kv l ih =>
      obtain ⟨k1, v1⟩ := kv
      intro acc g k
      rw [List.foldl_cons, ih, mem_addDeferKey]
      constructor
      · rintro ((h | ⟨hg, hk⟩) | ⟨v, hv, hvg⟩)
        · exact Or.inl h
        · exact Or.inr ⟨v1, by simp [hk], hg.symm⟩
        · exact Or.inr ⟨v, by simp [hv], hvg⟩
      · rintro (h | ⟨v, hv, hvg⟩)
        · exact Or.inl (Or.inl h)
        · rcases List.mem_cons.mp hv with heq | hv2
          · rw [Prod.mk.injEq] at heq
            exact Or.inl (Or.inr ⟨by rw [← hvg, heq.2], heq.1⟩)
          · exact Or.inr ⟨v, hv2, hvg⟩

theorem defer_is_ignore (v : Val) (h : v.isDefer = true) :
    v.isIgnoreFirstLoad = true := by
  cases v <;> simp_all [Val.isDefer, Val.isIgnoreFirstLoad]

/-- C5: a partial request never emits `deferredProps`; a full request
groups the top-level Defer keys by `group()` (null or empty group
mapping to `"default"`), emits the mapping only when non-empty, and
none of those keys appear in the resolved props.  The final conjuncts
check the claim's example: `{x: Defer(cb,"g1"), y: Defer(cb,"g1"),
z: Defer(cb)}` on a full request yields
`deferredProps = {g1:["x","y"], default:["z"]}` (first-seen order) and
empty resolved props. -/
theorem deferredGrouping :
    (∀ (component : String) (props : Fields) (req : Request),
      isPartialReq component req = true →
      resolveDeferredProps component props req = none) ∧
    (∀ (component : String) (props : Fields) (req : Request),
      props.keys.Nodup → isPartialReq component req = false →
      ((∀ g k, (∃ ks, (g, ks) ∈
            (resolveDeferredProps component props req).getD [] ∧ k ∈ ks) ↔
          ∃ v, props.lookup k = some v ∧ v.isDefer = true ∧
            v.deferGroupD = g) ∧
       (resolveDeferredProps component props req = none ↔
          ∀ k v, props.lookup k = some v → v.isDefer = false))) ∧
    (∀ (component : String) (props : Fields) (req : Request) (k : String)
        (v : Val),
      props.keys.Nodup → isPartialReq component req = false →
      props.lookup k = some v → v.isDefer = true →
      (resolveProperties component props req).lookup k = none) ∧
    (toPage "Home" propsD "v1" false fullReq).deferredProps
      = some [("g1", ["x", "y"]), ("default", ["z"])] ∧
    (toPage "Home" propsD "v1" false fullReq).props = .nil := by
  refine ⟨?_, ?_, ?_, rfl, rfl⟩
  · intro component props req hpart
    unfold resolveDeferredProps
    rw [if_pos hpart]
  · intro component props req hnd hfull
    unfold resolveDeferredProps
    rw [if_neg (by simp [hfull])]
    have hchar : ∀ g k,
        (∃ ks, (g, ks) ∈ (props.toList.filter
            (fun kv => kv.2.isDefer)).foldl
            (fun gs kv => addDeferKey gs kv.2.deferGroupD kv.1) [] ∧ k ∈ ks) ↔
          ∃ v, props.lookup k = some v ∧ v.isDefer = true ∧
            v.deferGroupD = g := by
      intro g k
      rw [mem_deferGroupsFold]
      simp only [List.not_mem_nil, false_and, exists_false, false_or,
        List.mem_filter]
      constructor
      · rintro ⟨v, ⟨hv, hd⟩, hg⟩
        exact ⟨v, (Fields.lookup_eq_some_iff_mem props k v hnd).mpr hv, hd, hg⟩
      · rintro ⟨v, hv, hd, hg⟩
        exact ⟨v, ⟨(Fields.lookup_eq_some_iff_mem props k v hnd).mp hv, hd⟩,
          hg⟩
    by_cases hg : (props.toList.filter (fun kv => kv.2.isDefer)).foldl
        (fun gs kv => addDeferKey gs kv.2.deferGroupD kv.1) [] = []
    · rw [if_pos hg]
      constructor
      · intro g k
        simp only [Option.getD_none, List.not_mem_nil, false_and,
          exists_false, false_iff]
        rintro ⟨v, hv, hd, hgr⟩
        rcases (hchar g k).mpr ⟨v, hv, hd, hgr⟩ with ⟨ks, hmem, _⟩
        rw [hg] at hmem
        exact List.not_mem_nil _ hmem
      · simp only [true_iff]
        intro k v hv
        cases hd : v.isDefer
        · rfl
        · exfalso
          rcases (hchar v.deferGroupD k).mpr ⟨v, hv, hd, rfl⟩ with
            ⟨ks, hmem, _⟩
          rw [hg] at hmem
          exact List.not_mem_nil _ hmem
    · rw [if_neg hg]
      constructor
      · intro g k
        simpa using hchar g k
      · simp only [reduceCtorEq, false_iff, not_forall]
        push_neg
        have hne : props.toList.filter (fun kv => kv.2.isDefer) ≠ [] := by
          intro hnil
          rw [hnil] at hg
          exact hg rfl
        rcases List.exists_mem_of_ne_nil _ hne with ⟨⟨k1, v1⟩, hkv⟩
        rcases List.mem_filter.mp hkv with ⟨hmem, hd⟩
        exact ⟨k1, v1, (Fields.lookup_eq_some_iff_mem props k1 v1 hnd).mpr
          hmem, by simp [hd]⟩
  · intro component props req k v hnd hfull hv hd
    exact lookup_resolveProperties_ignored component props req k v hnd hfull
      hv (defer_is_ignore v hd)

/-- C5 witness: the theorem applied at the example tree — a partial
request emits no `deferredProps`, and on a full request the deferred
key `x` is absent from the resolved props. -/
theorem deferredGroupingWitness :
    resolveDeferredProps "Home" propsD reqExA = none ∧
    (resolveProperties "Home" propsD fullReq).lookup "x" = none := by
  constructor
  · exact deferredGrouping.1 "Home" propsD reqExA rfl
  · exact deferredGrouping.2.2.1 "Home" propsD fullReq "x"
      (deferPropNew (.vInt 1) (some "g1")) (by decide) rfl rfl rfl

/-! ## C6: always reinjection -/

theorem nodup_keys_setNestedValue (f : Fields) (p : List String) (v : Val)
    (h : f.keys.Nodup) : (setNestedValue f p v).keys.Nodup := by
  match p with
  | [] => exact h
  | [k] => exact Fields.nodup_keys_setKey f k v h
  | k1 :: k2 :: rest =>
      show (Fields.keys
        (match f.lookup k1 with
          | some (.vObj inner) =>
              f.setKey k1 (.vObj (setNestedValue inner (k2 :: rest) v))
          | some _ => f
          | none =>
              f.setKey k1 (.vObj (setNestedValue .nil (k2 :: rest) v)))).Nodup
      cases hv : f.lookup k1 with
      | none => exact Fields.nodup_keys_setKey f k1 _ h
      | some w =>
          cases w with
          | vObj inner => exact Fields.nodup_keys_setKey f k1 _ h
          | vNull => exact h
          | vUndefined => exact h
          | vBool b => exact h
          | vInt n => exact h
          | vStr s => exact h
          | vArr es => exact h
          | vFunc r => exact h
          | vPromise r => exact h
          | lazyP c => exact h
          | optionalP c => exact h
          | alwaysP v2 => exact h
          | deferP c g m dm mo => exact h
          | mergeP v2 m dm mo => exact h

theorem nodup_keys_onlySelect (props : Fields) (ks : List String) :
    (onlySelect props ks).keys.Nodup := by
  unfold onlySelect
  suffices h : ∀ (l : List String) (acc : Fields), acc.keys.Nodup →
      (l.foldl (fun acc2 key =>
        setNestedValue acc2 (strSplit key '.')
          (deferInvokeStep (getNestedValue (.vObj props) (strSplit key '.'))))
        acc).keys.Nodup by
    exact h ks .nil (by simp)
  intro l
  induction l with
  | nil => intro acc h; exact h
  | cons k l ih =>
      intro acc h
      rw [List.foldl_cons]
      exact ih _ (nodup_keys_setNestedValue acc _ _ h)

theorem resolvePartialProperties_partialReq (component : String)
    (props : Fields) (req : Request)
    (hp : isPartialReq component req = true) :
    resolvePartialProperties component props req
      = exceptDelete
          (if headerList req.partialDataHeader ≠ []
           then onlySelect props (headerList req.partialDataHeader)
           else props)
          (headerList req.partialExceptHeader) := by
  unfold resolvePartialProperties
  rw [hp]
  simp

theorem nodup_keys_resolvePartialProperties (component : String)
    (props : Fields) (req : Request) (hnd : props.keys.Nodup) :
    (resolvePartialProperties component props req).keys.Nodup := by
  cases hp : isPartialReq component req with
  | false =>
      rw [resolvePartialProperties_full component props req hp,
        Fields.keys_listToFields]
      exact ((props.toList.filter_sublist).map Prod.fst).nodup hnd
  | true =>
      rw [resolvePartialProperties_partialReq component props req hp]
      by_cases ho : headerList req.partialDataHeader ≠ []
      · rw [if_pos ho]
        exact nodup_keys_exceptDelete _ _ (nodup_keys_onlySelect props _)
      · rw [if_neg ho]
        exact nodup_keys_exceptDelete _ _ hnd

/-- The tree `{l: Lazy(cb)}`. -/
def propsL : Fields := .cons "l" (.lazyP (.vFunc (.vStr "lazy value"))) .nil

/-- C6 counterexample: the claim says an Always-valued key is present
in the resolved props on both full and partial requests.  For
`{a: Always(1)}` on a partial request with `Partial-Except: a` and no
`Partial-Data`, the `except` pass deletes `a` from `this.props` itself
before `resolveAlways` reads it, so the always layer is rebuilt from
the already-filtered record and `a` is absent from the resolved
props. -/
theorem alwaysExceptCounterexample :
    propsAl.lookup "a" = some (.alwaysP (.vInt 1)) ∧
    isPartialReq "Home" reqExA = true ∧
    (resolveProperties "Home" propsAl reqExA).lookup "a" = none :=
  ⟨rfl, rfl, rfl⟩

/-- C6 as amended: (a) on a full request no Lazy/Optional/Defer-valued
key of the tree survives into the resolved props; (b) an Always-valued
key is present in the resolved props on every request except a partial
request whose `Partial-Data` header is empty and whose
`Partial-Except` list contains the key (there the in-place deletion
removes it before reinjection); (c) Always values are a base layer: a
key produced by the partial/first-load filtering step keeps its
filtered value (deeply resolved), never the Always re-add. -/
theorem alwaysReinjectionAmended :
    (∀ (component : String) (props : Fields) (req : Request) (k : String)
        (v : Val),
      props.keys.Nodup → isPartialReq component req = false →
      props.lookup k = some v → v.isIgnoreFirstLoad = true →
      (resolveProperties component props req).lookup k = none) ∧
    (∀ (component : String) (props : Fields) (req : Request) (k : String)
        (v : Val),
      props.keys.Nodup → props.lookup k = some (.alwaysP v) →
      ¬(isPartialReq component req = true ∧
        headerList req.partialDataHeader = [] ∧
        k ∈ headerList req.partialExceptHeader) →
      ((resolveProperties component props req).lookup k).isSome = true) ∧
    (∀ (component : String) (props : Fields) (req : Request) (k : String)
        (w : Val),
      props.keys.Nodup →
      (resolvePartialProperties component props req).lookup k = some w →
      (resolveProperties component props req).lookup k
        = some (resolveVal w)) := by
  refine ⟨?_, ?_, ?_⟩
  · intro component props req k v hnd hfull hv hig
    exact lookup_resolveProperties_ignored component props req k v hnd hfull
      hv hig
  · intro component props req k v hnd hv hnot
    have hmain : ∀ thisNow : Fields,
        (((resolvePartialProperties component props req).lookup k).isSome
            = true ∨
          ((listToFields (thisNow.toList.filter
            (fun kv => kv.2.isAlways))).lookup k).isSome = true) →
        ((resolveFields (resolveAlways thisNow
          (resolvePartialProperties component props req))).lookup k).isSome
            = true := by
      intro thisNow hsrc
      rw [Fields.lookup_resolveFields]
      unfold resolveAlways
      cases hp1 : (resolvePartialProperties component props req).lookup k with
      | some w =>
          rw [Fields.lookup_assignAll_of_some _ _ _ w
            (nodup_keys_resolvePartialProperties component props req hnd) hp1]
          rfl
      | none =>
          rw [Fields.lookup_assignAll_of_none _ _ _ hp1]
          rcases hsrc with hsrc | hsrc
          · rw [hp1] at hsrc; cases hsrc
          · cases ha : (listToFields (thisNow.toList.filter
                (fun kv => kv.2.isAlways))).lookup k with
            | some w2 => rfl
            | none => rw [ha] at hsrc; cases hsrc
    by_cases hpart : isPartialReq component req = true
    · by_cases honly : headerList req.partialDataHeader = []
      · -- the aliased branch: `this.props` is the filtered record
        have hkexc : k ∉ headerList req.partialExceptHeader :=
          fun hk => hnot ⟨hpart, honly, hk⟩
        have hp1 : (resolvePartialProperties component props req).lookup k
            = some (.alwaysP v) := by
          rw [resolvePartialProperties_partialReq component props req hpart,
            if_neg (by simp [honly])]
          exact lookup_exceptDelete_nonobj _ props k _ hv
            (fun g hh => by cases hh)
            (fun e he hsp => hkexc ((strSplit_eq_singleton e '.' k hsp) ▸ he))
        rw [resolveProperties_unfold, if_pos ⟨hpart, honly⟩]
        exact hmain _ (Or.inl (by rw [hp1]; rfl))
      · rw [resolveProperties_unfold, if_neg (fun hh => honly hh.2)]
        apply hmain props
        cases hp1 : (resolvePartialProperties component props req).lookup k with
        | some w => exact Or.inl rfl
        | none =>
            refine Or.inr ?_
            rw [Fields.lookup_listToFields_filter_of_some props _ k _ hnd hv]
            rfl
    · rw [resolveProperties_unfold,
        if_neg (fun hh => hpart hh.1)]
      apply hmain props
      refine Or.inl ?_
      rw [resolvePartialProperties_full component props req
        (Bool.not_eq_true _ ▸ Bool.of_not_eq_true hpart),
        Fields.lookup_listToFields_filter_of_some props _ k _ hnd hv]
      rfl
  · intro component props req k w hnd hp1
    rw [resolveProperties_unfold]
    have hres : ∀ thisNow : Fields,
        ((resolveFields (resolveAlways thisNow
          (resolvePartialProperties component props req))).lookup k)
            = some (resolveVal w) := by
      intro thisNow
      rw [Fields.lookup_resolveFields]
      unfold resolveAlways
      rw [Fields.lookup_assignAll_of_some _ _ _ w
        (nodup_keys_resolvePartialProperties component props req hnd) hp1]
      rfl
    by_cases hc : isPartialReq component req = true ∧
        headerList req.partialDataHeader = []
    · rw [if_pos hc]; exact hres _
    · rw [if_neg hc]; exact hres props

/-- C6 witness: the amended theorem at concrete trees — on a full
request the Always key `a` survives and the Lazy key `l` is dropped. -/
theorem alwaysReinjectionWitness :
    ((resolveProperties "Home" propsAl fullReq).lookup "a").isSome = true ∧
    (resolveProperties "Home" propsL fullReq).lookup "l" = none := by
  constructor
  · exact alwaysReinjectionAmended.2.1 "Home" propsAl fullReq "a" (.vInt 1)
      (by decide) rfl (fun h => absurd h.1 (by decide))
  · exact alwaysReinjectionAmended.1 "Home" propsL fullReq "l"
      (.lazyP (.vFunc (.vStr "lazy value"))) (by decide) rfl rfl rfl

/-! ## C1: unresolved wrappers after full-request resolution -/

mutual

/-- No prop-variant wrapper (Lazy, Optional, Always, Defer, Merge)
occurs anywhere in the value, recursing through records and arrays —
the predicate claim C1 asserts of every resolved prop value.  Callback
and promise payloads are not part of the enumerable value and are not
inspected. -/
def variantFree : Val → Bool
  | .vObj fs => variantFreeF fs
  | .vArr es => variantFreeE es
  | .lazyP _ => false
  | .optionalP _ => false
  | .alwaysP _ => false
  | .deferP _ _ _ _ _ => false
  | .mergeP _ _ _ _ => false
  | _ => true

/-- `variantFree` over a record's values. -/
def variantFreeF : Fields → Bool
  | .nil => true
  | .cons _ v r => variantFree v && variantFreeF r

/-- `variantFree` over an array. -/
def variantFreeE : Elems → Bool
  | .nil => true
  | .cons v r => variantFree v && variantFreeE r

end

mutual

/-- No Lazy, Optional, Always or Merge wrapper occurs anywhere in the
value; a Defer wrapper is tolerated (resolution leaves nested Defer
instances in place) but its walked callback field is inspected. -/
def noBadWrapper : Val → Bool
  | .vObj fs => noBadWrapperF fs
  | .vArr es => noBadWrapperE es
  | .lazyP _ => false
  | .optionalP _ => false
  | .alwaysP _ => false
  | .mergeP _ _ _ _ => false
  | .deferP f _ _ _ _ => noBadWrapper f
  | _ => true

/-- `noBadWrapper` over a record's values. -/
def noBadWrapperF : Fields → Bool
  | .nil => true
  | .cons _ v r => noBadWrapper v && noBadWrapperF r

/-- `noBadWrapper` over an array. -/
def noBadWrapperE : Elems → Bool
  | .nil => true
  | .cons v r => noBadWrapper v && noBadWrapperE r

end

mutual

/-- Well-formedness of a property tree: every value a wrapper or plain
callback produces on invocation is itself wrapper-free (a callback
returning another wrapper would escape resolution unresolved, since
replacement results are not revisited), and the callback-bearing
wrappers hold an actual function, as their constructors guarantee. -/
def goodVal : Val → Bool
  | .vObj fs => goodFields fs
  | .vArr es => goodElems es
  | .vFunc r => variantFree r
  | .lazyP (.vFunc r) => variantFree r
  | .lazyP _ => false
  | .optionalP (.vFunc r) => variantFree r
  | .optionalP _ => false
  | .alwaysP v => variantFree (invokeVal v)
  | .mergeP v _ _ _ => variantFree (invokeVal v)
  | .deferP (.vFunc r) _ _ _ _ => variantFree r
  | .deferP _ _ _ _ _ => false
  | _ => true

/-- `goodVal` over a record's values. -/
def goodFields : Fields → Bool
  | .nil => true
  | .cons _ v r => goodVal v && goodFields r

/-- `goodVal` over an array. -/
def goodElems : Elems → Bool
  | .nil => true
  | .cons v r => goodVal v && goodElems r

end

mutual

theorem variantFree_noBad : ∀ v : Val, variantFree v = true →
    noBadWrapper v = true
  | .vObj fs, h => variantFreeF_noBadF fs h
  | .vArr es, h => variantFreeE_noBadE es h
  | .vNull, _ => rfl
  | .vUndefined, _ => rfl
  | .vBool _, _ => rfl
  | .vInt _, _ => rfl
  | .vStr _, _ => rfl
  | .vFunc _, _ => rfl
  | .vPromise _, _ => rfl
  | .lazyP _, h => absurd h (by simp [variantFree])
  | .optionalP _, h => absurd h (by simp [variantFree])
  | .alwaysP _, h => absurd h (by simp [variantFree])
  | .deferP _ _ _ _ _, h => absurd h (by simp [variantFree])
  | .mergeP _ _ _ _, h => absurd h (by simp [variantFree])

theorem variantFreeF_noBadF : ∀ fs : Fields, variantFreeF fs = true →
    noBadWrapperF fs = true
  | .nil, _ => rfl
  | .cons _ v r, h =>
      have h2 := (Bool.and_eq_true _ _).mp h
      (Bool.and_eq_true _ _).mpr
        ⟨variantFree_noBad v h2.1, variantFreeF_noBadF r h2.2⟩

theorem variantFreeE_noBadE : ∀ es : Elems, variantFreeE es = true →
    noBadWrapperE es = true
  | .nil, _ => rfl
  | .cons v r, h =>
      have h2 := (Bool.and_eq_true _ _).mp h
      (Bool.and_eq_true _ _).mpr
        ⟨variantFree_noBad v h2.1, variantFreeE_noBadE r h2.2⟩

end

mutual

theorem good_resolve_noBad : ∀ v : Val, goodVal v = true →
    noBadWrapper (resolveVal v) = true
  | .vObj fs, h => goodF_resolveF_noBadF fs h
  | .vArr es, h => goodE_resolveE_noBadE es h
  | .vNull, _ => rfl
  | .vUndefined, _ => rfl
  | .vBool _, _ => rfl
  | .vInt _, _ => rfl
  | .vStr _, _ => rfl
  | .vFunc r, h => variantFree_noBad r h
  | .vPromise _, _ => rfl
  | .lazyP (.vFunc r), h => variantFree_noBad r h
  | .lazyP (.vObj _), h => absurd h (by simp [goodVal])
  | .lazyP (.vArr _), h => absurd h (by simp [goodVal])
  | .lazyP .vNull, h => absurd h (by simp [goodVal])
  | .lazyP .vUndefined, h => absurd h (by simp [goodVal])
  | .lazyP (.vBool _), h => absurd h (by simp [goodVal])
  | .lazyP (.vInt _), h => absurd h (by simp [goodVal])
  | .lazyP (.vStr _), h => absurd h (by simp [goodVal])
  | .lazyP (.vPromise _), h => absurd h (by simp [goodVal])
  | .lazyP (.lazyP _), h => absurd h (by simp [goodVal])
  | .lazyP (.optionalP _), h => absurd h (by simp [goodVal])
  | .lazyP (.alwaysP _), h => absurd h (by simp [goodVal])
  | .lazyP (.deferP _ _ _ _ _), h => absurd h (by simp [goodVal])
  | .lazyP (.mergeP _ _ _ _), h => absurd h (by simp [goodVal])
  | .optionalP (.vFunc r), h => variantFree_noBad r h
  | .optionalP (.vObj _), h => absurd h (by simp [goodVal])
  | .optionalP (.vArr _), h => absurd h (by simp [goodVal])
  | .optionalP .vNull, h => absurd h (by simp [goodVal])
  | .optionalP .vUndefined, h => absurd h (by simp [goodVal])
  | .optionalP (.vBool _), h => absurd h (by simp [goodVal])
  | .optionalP (.vInt _), h => absurd h (by simp [goodVal])
  | .optionalP (.vStr _), h => absurd h (by simp [goodVal])
  | .optionalP (.vPromise _), h => absurd h (by simp [goodVal])
  | .optionalP (.lazyP _), h => absurd h (by simp [goodVal])
  | .optionalP (.optionalP _), h => absurd h (by simp [goodVal])
  | .optionalP (.alwaysP _), h => absurd h (by simp [goodVal])
  | .optionalP (.deferP _ _ _ _ _), h => absurd h (by simp [goodVal])
  | .optionalP (.mergeP _ _ _ _), h => absurd h (by simp [goodVal])
  | .alwaysP v, h => variantFree_noBad (invokeVal v) h
  | .mergeP v _ _ _, h => variantFree_noBad (invokeVal v) h
  | .deferP (.vFunc r) g m dm mo, h => variantFree_noBad r h
  | .deferP (.vObj _) _ _ _ _, h => absurd h (by simp [goodVal])
  | .deferP (.vArr _) _ _ _ _, h => absurd h (by simp [goodVal])
  | .deferP .vNull _ _ _ _, h => absurd h (by simp [goodVal])
  | .deferP .vUndefined _ _ _ _, h => absurd h (by simp [goodVal])
  | .deferP (.vBool _) _ _ _ _, h => absurd h (by simp [goodVal])
  | .deferP (.vInt _) _ _ _ _, h => absurd h (by simp [goodVal])
  | .deferP (.vStr _) _ _ _ _, h => absurd h (by simp [goodVal])
  | .deferP (.vPromise _) _ _ _ _, h => absurd h (by simp [goodVal])
  | .deferP (.lazyP _) _ _ _ _, h => absurd h (by simp [goodVal])
  | .deferP (.optionalP _) _ _ _ _, h => absurd h (by simp [goodVal])
  | .deferP (.alwaysP _) _ _ _ _, h => absurd h (by simp [goodVal])
  | .deferP (.deferP _ _ _ _ _) _ _ _ _, h => absurd h (by simp [goodVal])
  | .deferP (.mergeP _ _ _ _) _ _ _ _, h => absurd h (by simp [goodVal])

theorem goodF_resolveF_noBadF : ∀ fs : Fields, goodFields fs = true →
    noBadWrapperF (resolveFields fs) = true
  | .nil, _ => rfl
  | .cons _ v r, h =>
      have h2 := (Bool.and_eq_true _ _).mp h
      (Bool.and_eq_true _ _).mpr
        ⟨good_resolve_noBad v h2.1, goodF_resolveF_noBadF r h2.2⟩

theorem goodE_resolveE_noBadE : ∀ es : Elems, goodElems es = true →
    noBadWrapperE (resolveElems es) = true
  | .nil, _ => rfl
  | .cons v r, h =>
      have h2 := (Bool.and_eq_true _ _).mp h
      (Bool.and_eq_true _ _).mpr
        ⟨good_resolve_noBad v h2.1, goodE_resolveE_noBadE r h2.2⟩

end

theorem goodFields_iff_mem (f : Fields) :
    goodFields f = true ↔ ∀ kv ∈ f.toList, goodVal kv.2 = true := by
  induction f using Fields.induction with
  | nil => simp [goodFields, Fields.toList]
  | cons k v r ih =>
      show (goodVal v && goodFields r) = true ↔
        ∀ kv ∈ (k, v) :: r.toList, goodVal kv.2 = true
      rw [Bool.and_eq_true, ih]
      simp

theorem noBadWrapperF_iff_mem (f : Fields) :
    noBadWrapperF f = true ↔ ∀ kv ∈ f.toList, noBadWrapper kv.2 = true := by
  induction f using Fields.induction with
  | nil => simp [noBadWrapperF, Fields.toList]
  | cons k v r ih =>
      show (noBadWrapper v && noBadWrapperF r) = true ↔
        ∀ kv ∈ (k, v) :: r.toList, noBadWrapper kv.2 = true
      rw [Bool.and_eq_true, ih]
      simp

theorem mem_toList_setKey (f : Fields) (k : String) (v : Val)
    (a : String) (w : Val) (h : (a, w) ∈ (f.setKey k v).toList) :
    (a, w) ∈ f.toList ∨ (a = k ∧ w = v) := by
  induction f using Fields.induction with
  | nil =>
      have h2 : (a, w) = (k, v) := by
        simpa [Fields.setKey, Fields.toList] using h
      rw [Prod.mk.injEq] at h2
      exact Or.inr h2
  | cons k0 w0 r ih =>
      by_cases h0 : k0 = k
      · subst h0
        simp only [Fields.setKey, if_pos rfl, Fields.toList] at h
        rcases List.mem_cons.mp h with h | h
        · rw [Prod.mk.injEq] at h
          exact Or.inr h
        · exact Or.inl (List.mem_cons_of_mem _ h)
      · simp only [Fields.setKey, if_neg h0, Fields.toList] at h
        rcases List.mem_cons.mp h with h | h
        · exact Or.inl (by rw [h]; exact List.mem_cons_self _ _)
        · rcases ih h with h | h
          · exact Or.inl (List.mem_cons_of_mem _ h)
          · exact Or.inr h

theorem mem_toList_assignAll (src : Fields) :
    ∀ (base : Fields) (a : String) (w : Val),
      (a, w) ∈ (Fields.assignAll base src).toList →
      (a, w) ∈ base.toList ∨ (a, w) ∈ src.toList := by
  induction src using Fields.induction with
  | nil => intro base a w h; exact Or.inl h
  | cons k v r ih =>
      intro base a w h
      rcases ih (base.setKey k v) a w h with h2 | h2
      · rcases mem_toList_setKey base k v a w h2 with h3 | h3
        · exact Or.inl h3
        · refine Or.inr ?_
          show (a, w) ∈ (k, v) :: r.toList
          rw [h3.1, h3.2]
          exact List.mem_cons_self _ _
      · refine Or.inr ?_
        show (a, w) ∈ (k, v) :: r.toList
        exact List.mem_cons_of_mem _ h2

theorem toList_resolveFields (f : Fields) :
    (resolveFields f).toList
      = f.toList.map (fun kv => (kv.1, resolveVal kv.2)) := by
  induction f using Fields.induction with
  | nil => rfl
  | cons k v r ih =>
      show (k, resolveVal v) :: (resolveFields r).toList = _
      rw [ih]
      rfl

theorem variantFree_not_defer (v : Val) (h : variantFree v = true) :
    v.isDefer = false := by
  cases v <;> simp_all [variantFree, Val.isDefer]

theorem good_nondefer_resolve (v : Val) (hg : goodVal v = true)
    (hd : v.isDefer = false) : (resolveVal v).isDefer = false := by
  cases v with
  | vObj fs => rfl
  | vArr es => rfl
  | vNull => rfl
  | vUndefined => rfl
  | vBool b => rfl
  | vInt n => rfl
  | vStr s => rfl
  | vPromise r => rfl
  | vFunc r => exact variantFree_not_defer r hg
  | lazyP f =>
      cases f <;> first
        | (exact variantFree_not_defer _ hg)
        | (exact absurd hg (by simp [goodVal]))
  | optionalP f =>
      cases f <;> first
        | (exact variantFree_not_defer _ hg)
        | (exact absurd hg (by simp [goodVal]))
  | alwaysP v2 => exact variantFree_not_defer (invokeVal v2) hg
  | mergeP v2 m dm mo => exact variantFree_not_defer (invokeVal v2) hg
  | deferP f g m dm mo => cases hd

theorem always_not_defer (v : Val) (h : v.isAlways = true) :
    v.isDefer = false := by
  cases v <;> simp_all [Val.isAlways, Val.isDefer]

theorem not_ignore_not_defer (v : Val) (h : v.isIgnoreFirstLoad = false) :
    v.isDefer = false := by
  cases v <;> simp_all [Val.isIgnoreFirstLoad, Val.isDefer]

/-- C1 counterexample: the claim says no Lazy, Optional, Always, Merge
or Defer instance remains anywhere in a full request's resolved props.
For `{a: {d: Defer(cb)}}` the first-load filter only inspects top-level
values, and `resolvePropertyInstances` does not list `DeferProp` in its
instance checks — it recurses into the wrapper as a plain object — so
the resolved props still hold a `DeferProp` instance at `a.d` (its
callback field invoked in place) and are not wrapper-free. -/
theorem nestedDeferCounterexample :
    isPartialReq "Home" fullReq = false ∧
    (resolveProperties "Home" propsNest fullReq).lookup "a"
      = some (.vObj (.cons "d" (.deferP (.vInt 1) none false false []) .nil)) ∧
    variantFreeF (resolveProperties "Home" propsNest fullReq) = false :=
  ⟨rfl, rfl, rfl⟩

/-- C1 as amended: on a full request over a well-formed tree (callback
results wrapper-free, wrapper constructors intact), the resolved props
contain no Lazy, Optional, Always or Merge instance at any depth, and
no Defer instance at top level; a Defer instance strictly below top
level survives resolution, as the counterexample shows. -/
theorem fullResolutionNoWrappers (component : String) (props : Fields)
    (req : Request) (hfull : isPartialReq component req = false)
    (hgood : goodFields props = true) :
    noBadWrapperF (resolveProperties component props req) = true ∧
    ∀ kv ∈ (resolveProperties component props req).toList,
      kv.2.isDefer = false := by
  rw [resolveProperties_unfold,
    if_neg (fun hh => by rw [hfull] at hh; cases hh.1)]
  have hX : ∀ kv ∈ (resolveAlways props
      (resolvePartialProperties component props req)).toList,
      goodVal kv.2 = true ∧ kv.2.isDefer = false := by
    rintro ⟨a, w⟩ hkv
    unfold resolveAlways at hkv
    rcases mem_toList_assignAll _ _ a w hkv with hm | hm
    · rw [Fields.toList_listToFields] at hm
      rcases List.mem_filter.mp hm with ⟨hmem, halw⟩
      exact ⟨(goodFields_iff_mem props).mp hgood _ hmem,
        always_not_defer w halw⟩
    · rw [resolvePartialProperties_full component props req hfull,
        Fields.toList_listToFields] at hm
      rcases List.mem_filter.mp hm with ⟨hmem, hig⟩
      simp only [decide_eq_true_eq, Bool.not_eq_true] at hig
      exact ⟨(goodFields_iff_mem props).mp hgood _ hmem,
        not_ignore_not_defer w hig⟩
  constructor
  · exact goodF_resolveF_noBadF _
      ((goodFields_iff_mem _).mpr (fun kv hkv => (hX kv hkv).1))
  · rintro ⟨a, w⟩ hkv
    rw [toList_resolveFields] at hkv
    rcases List.mem_map.mp hkv with ⟨⟨a1, w1⟩, hm, heq⟩
    rw [Prod.mk.injEq] at heq
    rcases hX (a1, w1) hm with ⟨hg, hd⟩
    rw [← heq.2]
    exact good_nondefer_resolve w1 hg hd

/-- C1 witness: the amended theorem at `{m: Merge(...)}` and
`{l: Lazy(cb)}` on a full request. -/
theorem fullResolutionNoWrappersWitness :
    noBadWrapperF (resolveProperties "Home" propsM fullReq) = true ∧
    noBadWrapperF (resolveProperties "Home" propsL fullReq) = true := by
  constructor
  · exact (fullResolutionNoWrappers "Home" propsM fullReq rfl (by decide)).1
  · exact (fullResolutionNoWrappers "Home" propsL fullReq rfl (by decide)).1

/-! ## C7: promise-returning callbacks -/

/-- C7 counterexample: the claim says resolution awaits every
asynchronous leaf so that no pending promise object remains in the
finalized props.  For `{p: () => Promise.resolve(5)}` on a full
request, `resolvePropertyInstances` stores the callback's return value
without awaiting it, so the page's props hold the pending promise
object itself, not the value 5. -/
theorem promiseCounterexample :
    (resolveProperties "Home" propsP fullReq).lookup "p"
      = some (.vPromise (.vInt 5)) ∧
    (Val.vPromise (.vInt 5) ≠ .vInt 5) :=
  ⟨rfl, fun h => Val.noConfusion h⟩

/-- C7 as amended: resolution is synchronous — each callback's return
value is stored as returned, so a callback returning a promise leaves
the pending promise object in the resolved props of the finalized page
object; nothing in the pipeline awaits prop values. -/
theorem promiseNotAwaited (component : String) (props : Fields)
    (req : Request) (k : String) (r : Val) (hnd : props.keys.Nodup)
    (hfull : isPartialReq component req = false)
    (hv : props.lookup k = some (.vFunc (.vPromise r))) :
    (resolveProperties component props req).lookup k
      = some (.vPromise r) := by
  rw [resolveProperties_unfold,
    if_neg (fun hh => by rw [hfull] at hh; cases hh.1)]
  have hp1 : (resolvePartialProperties component props req).lookup k
      = some (.vFunc (.vPromise r)) := by
    rw [resolvePartialProperties_full component props req hfull,
      Fields.lookup_listToFields_filter_of_some props _ k _ hnd hv]
    rfl
  rw [Fields.lookup_resolveFields]
  unfold resolveAlways
  rw [Fields.lookup_assignAll_of_some _ _ _ _
    (nodup_keys_resolvePartialProperties component props req hnd) hp1]
  rfl

/-- C7 witness. -/
theorem promiseNotAwaitedWitness :
    (resolveProperties "Home" propsP fullReq).lookup "p"
      = some (.vPromise (.vInt 5)) :=
  promiseNotAwaited "Home" propsP fullReq "p" (.vInt 5) (by decide) rfl rfl

/-! ## C10: in-place deletion of excepted keys -/

theorem lookup_exceptDelete_mem_none (es : List String) :
    ∀ (f : Fields) (k : String), k ∈ es → strSplit k '.' = [k] →
      (exceptDelete f es).lookup k = none := by
  induction es with
  | nil => intro f k hk _; cases hk
  | cons e es ih =>
      intro f k hk hdot
      show ((e :: es).foldl
        (fun acc key => unsetNestedValue acc (strSplit key '.')) f).lookup k
          = none
      rw [List.foldl_cons]
      by_cases he : e = k
      · subst he
        have h1 : (unsetNestedValue f (strSplit e '.')).lookup e = none := by
          rw [hdot, unsetNestedValue_single]
          exact Fields.lookup_deleteKey_self f e
        exact lookup_exceptDelete_none es _ e h1
      · rcases List.mem_cons.mp hk with hk1 | hk2
        · exact absurd hk1.symm he
        · exact ih _ k hk2 hdot

/-- C10: on a partial request whose `Partial-Data` header is empty and
whose `Partial-Except` list names the key, `toResponse` deletes the
key from the instance's own stored property tree (the `except` pass
runs on `this.props` itself, not on a copy), so the stored tree no
longer holds the key and a second resolution of the same instance no
longer sees it. -/
theorem exceptDeletesStoredProps (component : String) (props : Fields)
    (req : Request) (k : String) (es : List String)
    (hpart : isPartialReq component req = true)
    (honly : headerList req.partialDataHeader = [])
    (hexc : headerList req.partialExceptHeader = es)
    (hk : k ∈ es) (hdot : strSplit k '.' = [k]) :
    (storedPropsAfter component props req).lookup k = none ∧
    (resolveProperties component (storedPropsAfter component props req)
      req).lookup k = none := by
  have hstored : (storedPropsAfter component props req).lookup k = none := by
    unfold storedPropsAfter
    rw [if_pos ⟨hpart, honly⟩, hexc]
    exact Fields.lookup_mapVals_none _ _ k
      (lookup_exceptDelete_mem_none es props k hk hdot)
  refine ⟨hstored, ?_⟩
  rw [resolveProperties_unfold, if_pos ⟨hpart, honly⟩]
  have hp1 : (resolvePartialProperties component
      (storedPropsAfter component props req) req).lookup k = none := by
    rw [resolvePartialProperties_partialReq component _ req hpart,
      if_neg (by simp [honly]), hexc]
    exact lookup_exceptDelete_none es _ k hstored
  rw [Fields.lookup_resolveFields]
  unfold resolveAlways
  rw [Fields.lookup_assignAll_of_none _ _ _ hp1,
    Fields.lookup_listToFields_filter_of_none _ _ k hp1]
  rfl

/-- C10 witness: `{a:1,b:2}` with `Partial-Except: a` — the stored
tree and a second resolution both lose `a`. -/
theorem exceptDeletesStoredPropsWitness :
    (storedPropsAfter "Home" propsAB reqExA).lookup "a" = none ∧
    (resolveProperties "Home" (storedPropsAfter "Home" propsAB reqExA)
      reqExA).lookup "a" = none :=
  exceptDeletesStoredProps "Home" propsAB reqExA "a" ["a"] rfl rfl rfl
    (by decide) (by decide)

/-- C4 witness: the general characterization applied at the example
tree — `m` is selected into `deepMergeProps`. -/
theorem mergeMetadataWitness :
    "m" ∈ (resolveMergeProps propsM fullReq).deepMergeProps.getD [] :=
  ((mergeMetadata.1 propsM fullReq (by decide)).2.1 "m").mpr
    ⟨(mergePropNew (.vInt 5)).deepMergeB.matchOnB "id",
      ⟨rfl, rfl, rfl, by decide, Or.inl rfl, by decide⟩, rfl⟩
